import Mathlib

set_option autoImplicit false

/-
Verification of the schema-driven REST document engine: the document
preparation/validation engine (package schema, file schema.go) and the
resource request orchestrator (package rest, request-handler file).
Go documents (map[string]interface{}) are embedded as association lists
kept sorted by key, which is a canonical representation of the Go map
(unordered, unique keys).  Go interface{} values become the inductive
type Value; the schema sentinel Tombstone becomes the constructor tomb,
and the Go nil interface becomes the constructor null.  A value holding
a pointer to a map (as opposed to a plain map) is kept distinct via the
constructor vPtrDoc, because schema.go line 163 type-asserts a stored
sub-document to *map[string]interface{}, and the success or failure of
that assertion is observable behaviour.
-/

mutual

inductive Value where
  | null : Value
  | tomb : Value
  | vBool : Bool → Value
  | vInt : Int → Value
  | vStr : String → Value
  | vDoc : DocV → Value
  | vPtrDoc : DocV → Value

inductive DocV where
  | nil : DocV
  | cons : String → Value → DocV → DocV

end

/-- Lexicographic order on character lists by code point, used to keep
the canonical document representation sorted. -/
def strLtAux : List Char → List Char → Bool
  | [], [] => false
  | [], _ :: _ => true
  | _ :: _, [] => false
  | a :: r, b :: s =>
    if a.toNat < b.toNat then true
    else if b.toNat < a.toNat then false
    else strLtAux r s

/-- Strict total order on strings (lexicographic by code point). -/
def strLt (a b : String) : Bool := strLtAux a.data b.data

/-- Lookup of a key in a document, Go `v, found := m[k]`. -/
def DocV.get : DocV → String → Option Value
  | .nil, _ => none
  | .cons k v rest, key => if k = key then some v else rest.get key

/-- Insertion keeping the canonical sorted-by-key representation;
models the Go map assignment `m[k] = v`. -/
def DocV.insert : DocV → String → Value → DocV
  | .nil, key, value => .cons key value .nil
  | .cons k v rest, key, value =>
    if strLt key k then .cons key value (.cons k v rest)
    else if key = k then .cons key value rest
    else .cons k v (rest.insert key value)

/-- Deletion of a key, Go `delete(m, k)`. -/
def DocV.erase : DocV → String → DocV
  | .nil, _ => .nil
  | .cons k v rest, key => if k = key then rest else .cons k v (rest.erase key)

/-- Number of entries, Go `len(m)` for a canonical document. -/
def DocV.length : DocV → Nat
  | .nil => 0
  | .cons _ _ rest => rest.length + 1

/-- Emptiness test, Go `len(m) > 0` negated. -/
def DocV.isEmpty : DocV → Bool
  | .nil => true
  | .cons _ _ _ => false

/-- Canonical well-formedness: keys strictly increasing, so that list
equality coincides with Go map equality. -/
def DocV.wf : DocV → Bool
  | .nil => true
  | .cons _ _ .nil => true
  | .cons k _ (.cons k2 v2 rest) => strLt k k2 && DocV.wf (.cons k2 v2 rest)

mutual

/-- Structural deep equality on values; models reflect.DeepEqual on the
canonical representation (DeepEqual dereferences pointers, so two
pointer-to-map values compare by their pointees, while a plain map and a
pointer to a map have different dynamic types and compare unequal). -/
def Value.veq : Value → Value → Bool
  | .null, .null => true
  | .tomb, .tomb => true
  | .vBool a, .vBool b => a == b
  | .vInt a, .vInt b => a == b
  | .vStr a, .vStr b => a == b
  | .vDoc a, .vDoc b => DocV.deq a b
  | .vPtrDoc a, .vPtrDoc b => DocV.deq a b
  | _, _ => false

def DocV.deq : DocV → DocV → Bool
  | .nil, .nil => true
  | .cons k v r, .cons k2 v2 r2 => k == k2 && Value.veq v v2 && DocV.deq r r2
  | _, _ => false

end

mutual

theorem Value.veq_eq : ∀ a b : Value, Value.veq a b = true → a = b
  | .null, .null, _ => rfl
  | .tomb, .tomb, _ => rfl
  | .vBool a, .vBool b, h => by
    simp only [Value.veq, beq_iff_eq] at h; rw [h]
  | .vInt a, .vInt b, h => by
    simp only [Value.veq, beq_iff_eq] at h; rw [h]
  | .vStr a, .vStr b, h => by
    simp only [Value.veq, beq_iff_eq] at h; rw [h]
  | .vDoc a, .vDoc b, h => by
    simp only [Value.veq] at h; rw [DocV.deq_eq a b h]
  | .vPtrDoc a, .vPtrDoc b, h => by
    simp only [Value.veq] at h; rw [DocV.deq_eq a b h]

theorem DocV.deq_eq : ∀ a b : DocV, DocV.deq a b = true → a = b
  | .nil, .nil, _ => rfl
  | .cons k v r, .cons k2 v2 r2, h => by
    simp only [DocV.deq, Bool.and_eq_true, beq_iff_eq] at h
    rw [h.1.1, Value.veq_eq v v2 h.1.2, DocV.deq_eq r r2 h.2]

end

mutual

theorem Value.veq_refl : ∀ a : Value, Value.veq a a = true
  | .null => rfl
  | .tomb => rfl
  | .vBool a => by simp [Value.veq]
  | .vInt a => by simp [Value.veq]
  | .vStr a => by simp [Value.veq]
  | .vDoc a => by simp only [Value.veq]; exact DocV.deq_refl a
  | .vPtrDoc a => by simp only [Value.veq]; exact DocV.deq_refl a

theorem DocV.deq_refl : ∀ a : DocV, DocV.deq a a = true
  | .nil => rfl
  | .cons k v r => by
    simp only [DocV.deq, Bool.and_eq_true, beq_iff_eq]
    exact ⟨⟨trivial, Value.veq_refl v⟩, DocV.deq_refl r⟩

end

theorem Value.veq_iff : ∀ a b : Value, Value.veq a b = true ↔ a = b := by
  intro a b
  constructor
  · exact Value.veq_eq a b
  · intro h; rw [h]; exact Value.veq_refl b

example : DocV.get (.cons "a" (.vInt 1) .nil) "a" = some (.vInt 1) := rfl
example : (DocV.cons "a" (.vInt 1) (.cons "b" .null .nil)).wf = true := by decide

/-
The schema data model (schema.go and the spec's data-model section).
A Field carries: Default, Required, ReadOnly, Hidden, an optional
Validator (FieldValidator.Validate: normalize-or-fail), an optional
nested Schema, OnInit/OnUpdate hooks, and an optional Dependency
predicate.  The Field/Fields types themselves live in a file of the
schema package that is not among the provided sources; the shape used
here is exactly the set of members that schema.go dereferences
(def.Default, def.Required, def.ReadOnly, def.Hidden, def.Validator,
def.Schema, def.OnInit, def.OnUpdate) plus the Dependency capability
described by the spec.  Validators, hooks and dependency predicates are
embedded as Lean functions.  MinLen/MaxLen are Go ints (Int here).
-/

mutual

inductive Schema where
  | mk : FieldList → Int → Int → Schema

inductive FieldList where
  | nil : FieldList
  | cons : String → FieldDef → FieldList → FieldList

inductive FieldDef where
  | mk : Option Value → Bool → Bool → Bool →
      Option (Value → Except String Value) → SubSchema →
      Option (Value → Value) → Option (Value → Value) →
      Option (DocV → Bool) → FieldDef

inductive SubSchema where
  | nosub : SubSchema
  | sub : Schema → SubSchema

end

def Schema.sfields : Schema → FieldList
  | .mk fl _ _ => fl

def Schema.minLen : Schema → Int
  | .mk _ m _ => m

def Schema.maxLen : Schema → Int
  | .mk _ _ m => m

def FieldDef.fdefault : FieldDef → Option Value
  | .mk d _ _ _ _ _ _ _ _ => d

def FieldDef.required : FieldDef → Bool
  | .mk _ r _ _ _ _ _ _ _ => r

def FieldDef.readOnly : FieldDef → Bool
  | .mk _ _ r _ _ _ _ _ _ => r

def FieldDef.hidden : FieldDef → Bool
  | .mk _ _ _ h _ _ _ _ _ => h

def FieldDef.fvalidator : FieldDef → Option (Value → Except String Value)
  | .mk _ _ _ _ v _ _ _ _ => v

def FieldDef.subSchema : FieldDef → SubSchema
  | .mk _ _ _ _ _ s _ _ _ => s

def FieldDef.onInit : FieldDef → Option (Value → Value)
  | .mk _ _ _ _ _ _ h _ _ => h

def FieldDef.onUpdate : FieldDef → Option (Value → Value)
  | .mk _ _ _ _ _ _ _ h _ => h

def FieldDef.dependency : FieldDef → Option (DocV → Bool)
  | .mk _ _ _ _ _ _ _ _ d => d

/-- Lookup of a field definition by name, Go `def, found := s.Fields[name]`. -/
def FieldList.findF : FieldList → String → Option FieldDef
  | .nil, _ => none
  | .cons n f rest, name => if n = name then some f else rest.findF name

/-- Uniqueness of the declared field names (a Go map cannot hold two
entries under the same key). -/
def FieldList.namesNodup : FieldList → Bool
  | .nil => true
  | .cons n _ rest => (rest.findF n).isNone && rest.namesNodup

theorem chEq (a b : Char) (h : a.toNat = b.toNat) : a = b :=
  Char.eq_of_val_eq (UInt32.ext h)

theorem strEq (a b : String) (h : a.data = b.data) : a = b := by
  cases a; cases b; simp_all

theorem strLtAux_irrefl : ∀ l : List Char, strLtAux l l = false
  | [] => rfl
  | a :: r => by simp [strLtAux, strLtAux_irrefl r]

theorem strLtAux_trans : ∀ a b c : List Char,
    strLtAux a b = true → strLtAux b c = true → strLtAux a c = true := by
  intro a
  induction a with
  | nil =>
    intro b c h1 h2
    cases b with
    | nil => exact h2
    | cons bh bt =>
      cases c with
      | nil => simp [strLtAux] at h2
      | cons ch ct => rfl
  | cons ah ar ih =>
    intro b c h1 h2
    cases b with
    | nil => simp [strLtAux] at h1
    | cons bh bt =>
      cases c with
      | nil => simp [strLtAux] at h2
      | cons ch ct =>
        simp only [strLtAux] at h1 h2 ⊢
        by_cases hab : ah.toNat < bh.toNat
        · rw [if_pos hab] at h1
          by_cases hbc : bh.toNat < ch.toNat
          · rw [if_pos (show ah.toNat < ch.toNat by omega)]
          · rw [if_neg hbc] at h2
            by_cases hcb : ch.toNat < bh.toNat
            · rw [if_pos hcb] at h2; exact Bool.noConfusion h2
            · rw [if_neg hcb] at h2
              rw [if_pos (show ah.toNat < ch.toNat by omega)]
        · rw [if_neg hab] at h1
          by_cases hba : bh.toNat < ah.toNat
          · rw [if_pos hba] at h1; exact Bool.noConfusion h1
          · rw [if_neg hba] at h1
            by_cases hbc : bh.toNat < ch.toNat
            · rw [if_pos (show ah.toNat < ch.toNat by omega)]
            · rw [if_neg hbc] at h2
              by_cases hcb : ch.toNat < bh.toNat
              · rw [if_pos hcb] at h2; exact Bool.noConfusion h2
              · rw [if_neg hcb] at h2
                rw [if_neg (show ¬ ah.toNat < ch.toNat by omega),
                  if_neg (show ¬ ch.toNat < ah.toNat by omega)]
                exact ih bt ct h1 h2

theorem strLtAux_eq : ∀ a b : List Char,
    strLtAux a b = false → strLtAux b a = false → a = b := by
  intro a
  induction a with
  | nil =>
    intro b h1 _
    cases b with
    | nil => rfl
    | cons bh bt => simp [strLtAux] at h1
  | cons ah ar ih =>
    intro b h1 h2
    cases b with
    | nil => simp [strLtAux] at h2
    | cons bh bt =>
      simp only [strLtAux] at h1 h2
      by_cases hab : ah.toNat < bh.toNat
      · rw [if_pos hab] at h1; exact Bool.noConfusion h1
      · rw [if_neg hab] at h1
        by_cases hba : bh.toNat < ah.toNat
        · rw [if_pos hba] at h2; exact Bool.noConfusion h2
        · rw [if_neg hba] at h1
          rw [if_neg hba, if_neg hab] at h2
          rw [chEq ah bh (by omega), ih bt h1 h2]

theorem strLt_irrefl (a : String) : strLt a a = false := strLtAux_irrefl a.data

theorem strLt_trans {a b c : String} (h1 : strLt a b = true)
    (h2 : strLt b c = true) : strLt a c = true :=
  strLtAux_trans _ _ _ h1 h2

theorem strLt_eq {a b : String} (h1 : strLt a b = false)
    (h2 : strLt b a = false) : a = b :=
  strEq a b (strLtAux_eq _ _ h1 h2)

theorem strLt_total {a b : String} (h1 : strLt a b = false) (hne : a ≠ b) :
    strLt b a = true := by
  cases hba : strLt b a with
  | true => rfl
  | false => exact absurd (strLt_eq h1 hba) hne

theorem strLt_asymm {a b : String} (h : strLt a b = true) : strLt b a = false := by
  cases hba : strLt b a with
  | false => rfl
  | true =>
    have h2 := strLt_trans h hba
    rw [strLt_irrefl] at h2
    exact Bool.noConfusion h2

theorem strLt_ne {a b : String} (h : strLt a b = true) : a ≠ b := by
  intro he
  rw [he, strLt_irrefl] at h
  exact Bool.noConfusion h

theorem DocV.get_insert_self : ∀ (d : DocV) (k : String) (v : Value),
    (d.insert k v).get k = some v
  | .nil, k, v => by simp [DocV.insert, DocV.get]
  | .cons k2 v2 rest, k, v => by
    simp only [DocV.insert]
    by_cases hlt : strLt k k2 = true
    · rw [if_pos hlt]; simp [DocV.get]
    · rw [if_neg hlt]
      by_cases he : k = k2
      · rw [if_pos he]; simp [DocV.get]
      · rw [if_neg he]
        simp only [DocV.get]
        rw [if_neg (fun hc => he hc.symm)]
        exact DocV.get_insert_self rest k v

theorem DocV.get_insert_ne : ∀ (d : DocV) (k key : String) (v : Value),
    key ≠ k → (d.insert k v).get key = d.get key
  | .nil, k, key, v, hne => by
    simp only [DocV.insert, DocV.get]
    rw [if_neg (fun hc : k = key => hne hc.symm)]
  | .cons k2 v2 rest, k, key, v, hne => by
    simp only [DocV.insert]
    by_cases hlt : strLt k k2 = true
    · rw [if_pos hlt]
      simp only [DocV.get]
      rw [if_neg (fun hc => hne hc.symm)]
    · rw [if_neg hlt]
      by_cases he : k = k2
      · rw [if_pos he]
        simp only [DocV.get]
        rw [if_neg (fun hc => hne hc.symm), if_neg (fun hc : k2 = key => hne (he ▸ hc.symm))]
      · rw [if_neg he]
        simp only [DocV.get]
        by_cases h2 : k2 = key
        · rw [if_pos h2, if_pos h2]
        · rw [if_neg h2, if_neg h2]
          exact DocV.get_insert_ne rest k key v hne

theorem DocV.wf_tail {k : String} {v : Value} {rest : DocV}
    (h : (DocV.cons k v rest).wf = true) : rest.wf = true := by
  cases rest with
  | nil => rfl
  | cons k2 v2 r2 =>
    simp only [DocV.wf, Bool.and_eq_true] at h
    exact h.2

theorem DocV.wf_head_lt {k k2 : String} {v v2 : Value} {rest : DocV}
    (h : (DocV.cons k v (DocV.cons k2 v2 rest)).wf = true) : strLt k k2 = true := by
  simp only [DocV.wf, Bool.and_eq_true] at h
  exact h.1

theorem DocV.wf_cons {k k2 : String} {v v2 : Value} {rest : DocV}
    (h1 : strLt k k2 = true) (h2 : (DocV.cons k2 v2 rest).wf = true) :
    (DocV.cons k v (DocV.cons k2 v2 rest)).wf = true := by
  simp only [DocV.wf, Bool.and_eq_true]
  exact ⟨h1, h2⟩

theorem DocV.wf_insert : ∀ (d : DocV) (k : String) (v : Value),
    d.wf = true → (d.insert k v).wf = true
  | .nil, k, v, _ => rfl
  | .cons k2 v2 rest, k, v, hwf => by
    simp only [DocV.insert]
    by_cases hlt : strLt k k2 = true
    · rw [if_pos hlt]
      exact DocV.wf_cons hlt hwf
    · rw [if_neg hlt]
      by_cases he : k = k2
      · rw [if_pos he]
        subst he
        cases rest with
        | nil => rfl
        | cons k3 v3 r3 => exact DocV.wf_cons (DocV.wf_head_lt hwf) (DocV.wf_tail hwf)
      · rw [if_neg he]
        have hk2k : strLt k2 k = true :=
          strLt_total (by revert hlt; cases strLt k k2 <;> simp) he
        have hrest := DocV.wf_insert rest k v (DocV.wf_tail hwf)
        cases hr : rest.insert k v with
        | nil => rfl
        | cons k3 v3 r3 =>
          rw [hr] at hrest
          refine DocV.wf_cons ?_ hrest
          cases rest with
          | nil =>
            simp only [DocV.insert] at hr
            cases hr
            exact hk2k
          | cons k4 v4 r4 =>
            simp only [DocV.insert] at hr
            by_cases hlt4 : strLt k k4 = true
            · rw [if_pos hlt4] at hr
              cases hr
              exact hk2k
            · rw [if_neg hlt4] at hr
              by_cases he4 : k = k4
              · rw [if_pos he4] at hr
                cases hr
                exact hk2k
              · rw [if_neg he4] at hr
                cases hr
                exact DocV.wf_head_lt hwf

theorem DocV.get_none_of_lt : ∀ (d : DocV) (k : String),
    d.wf = true → (∀ k2 v2 r2, d = DocV.cons k2 v2 r2 → strLt k k2 = true) →
    d.get k = none
  | .nil, _, _, _ => rfl
  | .cons k2 v2 rest, k, hwf, hlt => by
    have hk : strLt k k2 = true := hlt k2 v2 rest rfl
    simp only [DocV.get]
    rw [if_neg (fun hc : k2 = k => strLt_ne hk hc.symm)]
    refine DocV.get_none_of_lt rest k (DocV.wf_tail hwf) ?_
    intro k3 v3 r3 hr
    subst hr
    exact strLt_trans hk (DocV.wf_head_lt hwf)

theorem DocV.ext : ∀ (d e : DocV), d.wf = true → e.wf = true →
    (∀ k, d.get k = e.get k) → d = e
  | .nil, e, _, hewf, hget => by
    cases e with
    | nil => rfl
    | cons k2 v2 r2 =>
      have := hget k2
      simp [DocV.get] at this
  | .cons k v rest, e, hdwf, hewf, hget => by
    cases e with
    | nil =>
      have := hget k
      simp [DocV.get] at this
    | cons k2 v2 r2 =>
      have hkk2 : k = k2 := by
        by_contra hne
        by_cases hlt : strLt k k2 = true
        · have h1 := hget k
          simp only [DocV.get, if_pos rfl] at h1
          rw [if_neg (fun hc : k2 = k => strLt_ne hlt hc.symm)] at h1
          rw [DocV.get_none_of_lt r2 k (DocV.wf_tail hewf)
            (fun k3 v3 r3 hr => by subst hr; exact strLt_trans hlt (DocV.wf_head_lt hewf))] at h1
          exact Option.noConfusion h1
        · have hlt2 : strLt k2 k = true := strLt_total
            (by revert hlt; cases strLt k k2 <;> simp) hne
          have h1 := hget k2
          simp only [DocV.get, if_pos rfl] at h1
          rw [if_neg (fun hc : k = k2 => hne hc)] at h1
          rw [DocV.get_none_of_lt rest k2 (DocV.wf_tail hdwf)
            (fun k3 v3 r3 hr => by subst hr; exact strLt_trans hlt2 (DocV.wf_head_lt hdwf))] at h1
          exact Option.noConfusion h1
      subst hkk2
      have hv : v = v2 := by
        have h1 := hget k
        simp only [DocV.get, if_pos rfl] at h1
        exact Option.some.inj h1
      subst hv
      refine congrArg (DocV.cons k v) (DocV.ext rest r2 (DocV.wf_tail hdwf) (DocV.wf_tail hewf) ?_)
      intro key
      by_cases hk : key = k
      · subst hk
        rw [DocV.get_none_of_lt rest key (DocV.wf_tail hdwf)
          (fun k3 v3 r3 hr => by subst hr; exact DocV.wf_head_lt hdwf)]
        rw [DocV.get_none_of_lt r2 key (DocV.wf_tail hewf)
          (fun k3 v3 r3 hr => by subst hr; exact DocV.wf_head_lt hewf)]
      · have h1 := hget key
        simp only [DocV.get] at h1
        rw [if_neg (fun hc : k = key => hk hc.symm), if_neg (fun hc : k = key => hk hc.symm)] at h1
        exact h1

/-
Embedding of Schema.Prepare (schema.go lines 102-221).  The Go function
panics (log.Panic) when replace=true is used without an original; the
embedding returns Except.error with the panic message in that case, and
Except.ok (changes, base) otherwise.  The per-field work is done field
by field exactly as the Go loop body does: change/base resolution,
then the nested-schema block, then the OnInit/OnUpdate hook block;
after the loop every payload field that is not declared in the schema
is copied into changes.
-/

/-- The loop at schema.go lines 215-219: payload fields that have no
field definition are copied verbatim into changes. -/
def FieldList.outOfSchema : FieldList → DocV → DocV → DocV
  | _, .nil, c => c
  | fl, .cons k v rest, c =>
    match fl.findF k with
    | some _ => FieldList.outOfSchema fl rest c
    | none => FieldList.outOfSchema fl rest (c.insert k v)

/-- Lines 111-119 of schema.go: change/base resolution for one field of
a new document (original absent): a present non-nil value is a change;
an absent or nil value takes the declared default into base. -/
def prepNew (name : String) (fd : FieldDef) (valueOpt : Option Value) (c b : DocV) :
    DocV × DocV :=
  match valueOpt with
  | none => (c, match fd.fdefault with | some dv => b.insert name dv | none => b)
  | some .null => (c, match fd.fdefault with | some dv => b.insert name dv | none => b)
  | some v => (c.insert name v, b)

/-- Lines 120-154 of schema.go: change/base resolution for one field
against an original document: a present value is normalized through the
validator when declared and recorded as a change only when it differs
from the original (deep equality); an absent field of the payload that
exists in the original becomes, under replace, the original value
(hidden non-read-only), the default (required with default) or the
Tombstone; whenever the original holds the field its value goes into
base. -/
def prepDiff (name : String) (fd : FieldDef) (valueOpt oOpt : Option Value)
    (replace : Bool) (c b : DocV) : DocV × DocV :=
  let c :=
    match valueOpt with
    | some v =>
      match fd.fvalidator with
      | some fv =>
        match fv v with
        | .error _ => c.insert name v
        | .ok validated =>
          match oOpt with
          | some ov => if Value.veq validated ov then c else c.insert name validated
          | none => c.insert name validated
      | none =>
        match oOpt with
        | some ov => if Value.veq v ov then c else c.insert name v
        | none => c.insert name v
    | none =>
      match oOpt with
      | some ov =>
        if replace then
          if fd.hidden && !fd.readOnly then c.insert name ov
          else if fd.required && fd.fdefault.isSome then
            c.insert name (fd.fdefault.getD .null)
          else c.insert name .tomb
        else c
      | none => c
  let b := match oOpt with | some ov => b.insert name ov | none => b
  (c, b)

/-- Lines 156-166 of schema.go: the sub-original used for the recursive
Prepare of a nested-schema field.  When an original document is present
the original's value for the field is type-asserted to
*map[string]interface{}; on failure (including the plain-map case and
the absent case) an empty document is used instead. -/
def subOriginalOf (name : String) (original : Option DocV) : Option DocV :=
  match original with
  | none => none
  | some o =>
    match o.get name with
    | some (.vPtrDoc su) => some su
    | _ => some DocV.nil

/-- Lines 188-211 of schema.go: the OnInit (creation) or OnUpdate
(update) hook applied to the effective value; a Tombstone change routes
the hook to the base value and removes the Tombstone from changes. -/
def prepHookStage (name : String) (fd : FieldDef) (original : Option DocV) (c b : DocV) :
    DocV × DocV :=
  match (match original with | none => fd.onInit | some _ => fd.onUpdate) with
  | none => (c, b)
  | some h =>
    match c.get name with
    | some .tomb => (c.erase name, b.insert name (h ((b.get name).getD .null)))
    | some v => (c.insert name (h v), b)
    | none => (c, b.insert name (h ((b.get name).getD .null)))

mutual

def Schema.prepare : Schema → DocV → Option DocV → Bool → Except String (DocV × DocV)
  | .mk fl _ _, payload, original, replace => do
    let (c, b) ← FieldList.prepFields fl payload original replace DocV.nil DocV.nil
    pure (FieldList.outOfSchema fl payload c, b)

def FieldList.prepFields : FieldList → DocV → Option DocV → Bool → DocV → DocV →
    Except String (DocV × DocV)
  | .nil, _, _, _, c, b => pure (c, b)
  | .cons name f rest, payload, original, replace, c, b => do
    let (c, b) ← FieldDef.prepOne name f payload original replace c b
    FieldList.prepFields rest payload original replace c b

def FieldDef.prepOne : String → FieldDef → DocV → Option DocV → Bool → DocV → DocV →
    Except String (DocV × DocV)
  | name, .mk dflt req ro hid valid sub onini onupd dep, payload, original, replace, c, b => do
    let valueOpt := payload.get name
    let (c, b) ←
      match original with
      | none =>
        if replace then throw "Cannot use replace=true without original"
        else pure (prepNew name (.mk dflt req ro hid valid sub onini onupd dep) valueOpt c b)
      | some o =>
        pure (prepDiff name (.mk dflt req ro hid valid sub onini onupd dep) valueOpt
          (o.get name) replace c b)
    let (c, b) ← SubSchema.prepSubStage name sub valueOpt original replace c b
    pure (prepHookStage name (.mk dflt req ro hid valid sub onini onupd dep) original c b)

def SubSchema.prepSubStage : String → SubSchema → Option Value → Option DocV → Bool →
    DocV → DocV → Except String (DocV × DocV)
  | _, .nosub, _, _, _, c, b => pure (c, b)
  | name, .sub ss, valueOpt, original, replace, c, b =>
    match valueOpt with
    | some (.vDoc m) => do
      let (sc, sb) ← Schema.prepare ss m (subOriginalOf name original) replace
      pure (c.insert name (.vDoc sc), b.insert name (.vDoc sb))
    | some _ => pure (c, b)
    | none => do
      let (sc, sb) ← Schema.prepare ss DocV.nil (subOriginalOf name original) replace
      if sc.isEmpty && sb.isEmpty then pure (c, b)
      else pure (c.insert name (.vDoc sc), b.insert name (.vDoc sb))

end

/-
Error aggregation: Go's map[string][]interface{} where each item is a
message string or, for nested fields, a nested error map.  Canonical
sorted association map again; addFieldError appends at the key.
-/

mutual

inductive ErrItem where
  | msg : String → ErrItem
  | nested : ErrMap → ErrItem

inductive ErrList where
  | nil : ErrList
  | cons : ErrItem → ErrList → ErrList

inductive ErrMap where
  | nil : ErrMap
  | cons : String → ErrList → ErrMap → ErrMap

end

def ErrList.append : ErrList → ErrList → ErrList
  | .nil, l => l
  | .cons i r, l => .cons i (r.append l)

def ErrList.one (i : ErrItem) : ErrList := .cons i .nil

/-- Lookup of the error list at a key (empty when absent). -/
def ErrMap.getL : ErrMap → String → ErrList
  | .nil, _ => .nil
  | .cons k l rest, key => if k = key then l else rest.getL key

/-- Go addFieldError (schema.go 340-342): errs[field] = append(errs[field], err). -/
def ErrMap.addFieldError : ErrMap → String → ErrItem → ErrMap
  | .nil, key, it => .cons key (ErrList.one it) .nil
  | .cons k l rest, key, it =>
    if strLt key k then .cons key (ErrList.one it) (.cons k l rest)
    else if key = k then .cons k (l.append (ErrList.one it)) rest
    else .cons k l (rest.addFieldError key it)

/-- Appending a whole list at a key; one step of Go mergeFieldErrors
(schema.go 344-349). -/
def ErrMap.addAll : ErrMap → String → ErrList → ErrMap
  | .nil, key, nl => .cons key nl .nil
  | .cons k l rest, key, nl =>
    if strLt key k then .cons key nl (.cons k l rest)
    else if key = k then .cons k (l.append nl) rest
    else .cons k l (rest.addAll key nl)

/-- Go mergeFieldErrors: for each field of the second map, append its
items to the first map's list for that field. -/
def ErrMap.merge : ErrMap → ErrMap → ErrMap
  | e, .nil => e
  | e, .cons k l rest => ErrMap.merge (e.addAll k l) rest

def ErrMap.isEmpty : ErrMap → Bool
  | .nil => true
  | .cons _ _ _ => false

/-- Whether the list contains the plain message s. -/
def ErrList.hasMsgIn : ErrList → String → Bool
  | .nil, _ => false
  | .cons (.msg m) r, s => m == s || r.hasMsgIn s
  | .cons (.nested _) r, s => r.hasMsgIn s

/-- Whether the error map carries message s under key k. -/
def ErrMap.hasMsg (e : ErrMap) (k s : String) : Bool := (e.getL k).hasMsgIn s

/-- Merging changes over base, schema.go lines 265-276: copy base, then
apply changes entry by entry, a Tombstone deleting the key. -/
def DocV.overlay : DocV → DocV → DocV
  | doc, .nil => doc
  | doc, .cons k .tomb rest => DocV.overlay (doc.erase k) rest
  | doc, .cons k v rest => DocV.overlay (doc.insert k v) rest

/-- Modelled from the spec: the dependency evaluator
(Schema.validateDependencies is declared in a file of the schema
package that is not among the provided sources).  Spec section 4.2:
dependency expressions declared on fields are evaluated against the
fully merged root document, and violations are merged into the error
set keyed by field path; section 3 describes Dependency as a predicate
over the final document controlling whether the field's presence is
valid.  Accordingly: for every declared field that carries a dependency
predicate and is present in the change set, a failing predicate on the
merged document produces one field-keyed error. -/
def validateDependencies : FieldList → DocV → DocV → ErrMap
  | .nil, _, _ => .nil
  | .cons name f rest, changes, doc =>
    let e := validateDependencies rest changes doc
    match f.dependency with
    | some p =>
      match changes.get name with
      | some _ => if p doc then e else e.addFieldError name (.msg "does not match dependency")
      | none => e
    | none => e

mutual

def Schema.msize : Schema → Nat
  | .mk fl _ _ => FieldList.msize fl + 1

def FieldList.msize : FieldList → Nat
  | .nil => 1
  | .cons _ f rest => FieldDef.msize f + FieldList.msize rest + 1

def FieldDef.msize : FieldDef → Nat
  | .mk _ _ _ _ _ s _ _ _ => SubSchema.msize s + 1

def SubSchema.msize : SubSchema → Nat
  | .nosub => 1
  | .sub s => Schema.msize s + 1

end

theorem FieldList.findF_msize : ∀ (fl : FieldList) (k : String) (f : FieldDef),
    fl.findF k = some f → FieldDef.msize f < FieldList.msize fl
  | .nil, _, _, h => Option.noConfusion h
  | .cons n f0 rest, k, f, h => by
    simp only [FieldList.findF] at h
    by_cases he : n = k
    · rw [if_pos he] at h
      cases h
      simp only [FieldList.msize]
      omega
    · rw [if_neg he] at h
      have := FieldList.findF_msize rest k f h
      simp only [FieldList.msize]
      omega

theorem FieldDef.sub_msize : ∀ (f : FieldDef) (ss : Schema),
    f.subSchema = .sub ss → Schema.msize ss < FieldDef.msize f
  | .mk d r ro h v s oi ou dep, ss, hs => by
    simp only [FieldDef.subSchema] at hs
    subst hs
    simp only [FieldDef.msize, SubSchema.msize]
    omega

/-
Embedding of Schema.validate (schema.go lines 230-338).
Phase one (checkFields, lines 233-264): per declared field, the
read-only check, the required check, and the recursive validation of an
absent nested-schema field against two empty maps.
Merge (overlay, lines 265-276), then dependency validation at the root
only (lines 277-282).
Phase two (checkDoc, lines 283-327): per field of the merged document,
the unknown-field check, the nested-schema recursion, and the leaf
validator.
Finally the MinLen/MaxLen bounds (lines 328-336); on a violation the
document is discarded (none) and a root-keyed error added.
-/

/-- The size-bound epilogue of Schema.validate (schema.go lines
328-336): l below MinLen, or above MaxLen when MaxLen > 0, discards the
document and adds a root-keyed error. -/
def sizeGate (minL maxL : Int) (doc1 : DocV) (errs : ErrMap) : Option DocV × ErrMap :=
  if (doc1.length : Int) < minL then
    (none, errs.addFieldError "" (.msg ("has fewer properties than " ++ toString minL)))
  else if maxL > 0 && (doc1.length : Int) > maxL then
    (none, errs.addFieldError "" (.msg ("has more properties than " ++ toString maxL)))
  else (some doc1, errs)

mutual

def Schema.validateR : Schema → DocV → DocV → Bool → Option DocV × ErrMap
  | .mk fl minL maxL, changes, base, isRoot =>
    let errs := FieldList.checkFields fl changes base ErrMap.nil
    let doc0 := DocV.overlay base changes
    let errs := if isRoot then errs.merge (validateDependencies fl changes doc0) else errs
    let p := FieldList.checkDoc fl doc0 doc0 changes base errs
    sizeGate minL maxL p.1 p.2
termination_by s _ _ _ => (Schema.msize s, 0)
decreasing_by
  all_goals apply Prod.Lex.left
  all_goals simp only [Schema.msize, FieldList.msize]
  all_goals omega

def FieldList.checkFields : FieldList → DocV → DocV → ErrMap → ErrMap
  | .nil, _, _, errs => errs
  | .cons name f rest, changes, base, errs =>
    let errs :=
      if f.readOnly && (changes.get name).isSome then
        errs.addFieldError name (.msg "read-only")
      else errs
    let errs :=
      if f.required then
        match changes.get name with
        | some .null => errs.addFieldError name (.msg "required")
        | some .tomb => errs.addFieldError name (.msg "required")
        | some _ => errs
        | none =>
          match base.get name with
          | none => errs.addFieldError name (.msg "required")
          | some .null => errs.addFieldError name (.msg "required")
          | some _ => errs
      else errs
    let errs :=
      match hss : f.subSchema with
      | .sub ss =>
        match changes.get name with
        | some _ => errs
        | none =>
          match base.get name with
          | some _ => errs
          | none =>
            match Schema.validateR ss DocV.nil DocV.nil false with
            | (_, subErrs) =>
              if subErrs.isEmpty then errs else errs.addFieldError name (.nested subErrs)
      | .nosub => errs
    FieldList.checkFields rest changes base errs
termination_by fl _ _ _ => (FieldList.msize fl, 0)
decreasing_by
  all_goals apply Prod.Lex.left
  · have h2 := FieldDef.sub_msize _ _ hss
    simp only [FieldList.msize]
    omega
  · simp only [FieldList.msize]
    omega

def FieldList.checkDoc : FieldList → DocV → DocV → DocV → DocV → ErrMap → DocV × ErrMap
  | _, .nil, doc, _, _, errs => (doc, errs)
  | fl, .cons k v iter, doc, changes, base, errs =>
    match hf : fl.findF k with
    | none =>
      FieldList.checkDoc fl iter doc changes base (errs.addFieldError k (.msg "invalid field"))
    | some f =>
      match hss : f.subSchema with
      | .sub ss =>
        let p1 : DocV × ErrMap :=
          match changes.get k with
          | some (.vDoc m) => (m, errs)
          | some _ => (DocV.nil, errs.addFieldError k (.msg "not a dict"))
          | none => (DocV.nil, errs)
        let p2 : DocV × ErrMap :=
          match base.get k with
          | some (.vDoc m) => (m, p1.2)
          | some _ => (DocV.nil, (p1.2).addFieldError k (.msg "not a dict"))
          | none => (DocV.nil, p1.2)
        match Schema.validateR ss p1.1 p2.1 false with
        | (subDoc, subErrs) =>
          if subErrs.isEmpty then
            FieldList.checkDoc fl iter (doc.insert k (.vDoc (subDoc.getD DocV.nil)))
              changes base p2.2
          else
            FieldList.checkDoc fl iter doc changes base
              ((p2.2).addFieldError k (.nested subErrs))
      | .nosub =>
        match f.fvalidator with
        | some fv =>
          match fv v with
          | .error m =>
            FieldList.checkDoc fl iter doc changes base (errs.addFieldError k (.msg m))
          | .ok v2 =>
            FieldList.checkDoc fl iter (doc.insert k v2) changes base errs
        | none => FieldList.checkDoc fl iter doc changes base errs
termination_by fl iter _ _ _ _ => (FieldList.msize fl, DocV.length iter + 1)
decreasing_by
  all_goals first
  | (apply Prod.Lex.right; simp only [DocV.length]; omega)
  | (apply Prod.Lex.left
     have h1 := FieldList.findF_msize _ _ _ hf
     have h2 := FieldDef.sub_msize _ _ hss
     omega)

end

/-- Go Schema.Validate (schema.go 226-228): validate at the root. -/
def Schema.validateRoot (s : Schema) (changes base : DocV) : Option DocV × ErrMap :=
  s.validateR changes base true

theorem ErrList.hasMsgIn_append_one : ∀ (l : ErrList) (m : String),
    (l.append (ErrList.one (.msg m))).hasMsgIn m = true
  | .nil, m => by simp [ErrList.append, ErrList.one, ErrList.hasMsgIn]
  | .cons (.msg s) r, m => by
    simp [ErrList.append, ErrList.hasMsgIn, ErrList.hasMsgIn_append_one r m]
  | .cons (.nested e) r, m => by
    simp [ErrList.append, ErrList.hasMsgIn, ErrList.hasMsgIn_append_one r m]

theorem ErrMap.hasMsg_addFieldError_self : ∀ (e : ErrMap) (k m : String),
    (e.addFieldError k (.msg m)).hasMsg k m = true
  | .nil, k, m => by
    simp [ErrMap.addFieldError, ErrMap.hasMsg, ErrMap.getL, ErrList.one, ErrList.hasMsgIn]
  | .cons k2 l2 rest, k, m => by
    simp only [ErrMap.addFieldError]
    by_cases hlt : strLt k k2 = true
    · rw [if_pos hlt]
      simp [ErrMap.hasMsg, ErrMap.getL, ErrList.one, ErrList.hasMsgIn]
    · rw [if_neg hlt]
      by_cases he : k = k2
      · rw [if_pos he]
        subst he
        simp only [ErrMap.hasMsg, ErrMap.getL, if_pos rfl]
        exact ErrList.hasMsgIn_append_one l2 m
      · rw [if_neg he]
        have ih := ErrMap.hasMsg_addFieldError_self rest k m
        simp only [ErrMap.hasMsg, ErrMap.getL] at ih ⊢
        rw [if_neg (fun hc : k2 = k => he hc.symm)]
        exact ih

theorem sizeGate_spec (minL maxL : Int) (d : DocV) (e : ErrMap) :
    (∀ d2, (sizeGate minL maxL d e).1 = some d2 →
      minL ≤ (d2.length : Int) ∧ (0 < maxL → (d2.length : Int) ≤ maxL)) ∧
    ((sizeGate minL maxL d e).1 = none →
      ((sizeGate minL maxL d e).2.hasMsg ""
          ("has fewer properties than " ++ toString minL) = true ∨
        (sizeGate minL maxL d e).2.hasMsg ""
          ("has more properties than " ++ toString maxL) = true)) := by
  unfold sizeGate
  by_cases h1 : (d.length : Int) < minL
  · rw [if_pos h1]
    refine ⟨fun d2 hd => Option.noConfusion hd, fun _ => Or.inl ?_⟩
    exact ErrMap.hasMsg_addFieldError_self _ "" _
  · rw [if_neg h1]
    by_cases h2 : maxL > 0 ∧ (d.length : Int) > maxL
    · rw [if_pos (by simp [h2.1, h2.2])]
      refine ⟨fun d2 hd => Option.noConfusion hd, fun _ => Or.inr ?_⟩
      exact ErrMap.hasMsg_addFieldError_self _ "" _
    · rw [if_neg (by
        simp only [Bool.and_eq_true, decide_eq_true_eq, not_and]
        intro ha hb
        exact h2 ⟨ha, hb⟩)]
      refine ⟨fun d2 hd => ?_, fun hn => Option.noConfusion hn⟩
      cases hd
      refine ⟨by omega, fun hmax => ?_⟩
      by_cases hgt : (d.length : Int) > maxL
      · exact absurd ⟨hmax, hgt⟩ h2
      · omega

/-- C1: for every schema and every pair (changes, base), Validate either
returns nil together with a root-keyed ("" -keyed) size-bound error, or
returns a document whose field count is at least MinLen and, when
MaxLen > 0, at most MaxLen; a document violating the bounds is never
returned. -/
theorem c1_size_invariant (s : Schema) (changes base : DocV) :
    (∀ d, (s.validateRoot changes base).1 = some d →
      s.minLen ≤ (d.length : Int) ∧ (0 < s.maxLen → (d.length : Int) ≤ s.maxLen)) ∧
    ((s.validateRoot changes base).1 = none →
      ((s.validateRoot changes base).2.hasMsg ""
          ("has fewer properties than " ++ toString s.minLen) = true ∨
        (s.validateRoot changes base).2.hasMsg ""
          ("has more properties than " ++ toString s.maxLen) = true)) := by
  cases s with
  | mk fl minL maxL =>
    simp only [Schema.validateRoot, Schema.validateR, Schema.minLen, Schema.maxLen]
    exact sizeGate_spec minL maxL _ _

/-- Witness for C1 at a concrete input: the empty schema with MinLen 1
on empty change and base sets returns a nil document with the
root-keyed size error. -/
theorem c1_size_invariant_witness :
    (Schema.validateRoot (.mk .nil 1 0) .nil .nil).2.hasMsg ""
        ("has fewer properties than " ++ toString (Schema.minLen (.mk .nil 1 0))) = true ∨
      (Schema.validateRoot (.mk .nil 1 0) .nil .nil).2.hasMsg ""
        ("has more properties than " ++ toString (Schema.maxLen (.mk .nil 1 0))) = true :=
  (c1_size_invariant (.mk .nil 1 0) .nil .nil).2 (by
    simp [Schema.validateRoot, Schema.validateR, FieldList.checkFields, FieldList.checkDoc,
      DocV.overlay, DocV.length, ErrMap.merge, validateDependencies, sizeGate])

/-- C5 counterexample: a schema declaring no fields.  The panic check of
Prepare (schema.go line 107-109) sits inside the per-field loop, so with
zero declared fields Prepare with replace=true and no original returns
normally (Except.ok, i.e. no panic) instead of failing fatally. -/
theorem c5_counterexample :
    Schema.prepare (.mk .nil 0 0) .nil none true = Except.ok (.nil, .nil) := rfl

/-- C5 amended: for every schema declaring at least one field and every
payload, Prepare with replace=true and the original document absent
panics (modelled as Except.error carrying the Go panic message); the
check runs in the first loop iteration, hence needs a first field. -/
theorem c5_amended (n : String) (f : FieldDef) (rest : FieldList)
    (minL maxL : Int) (payload : DocV) :
    Schema.prepare (.mk (.cons n f rest) minL maxL) payload none true =
      Except.error "Cannot use replace=true without original" := by
  cases f with
  | mk d req ro hid valid sub onini onupd dep => rfl

def c6SubSchema : Schema :=
  .mk (.cons "a" (.mk none false false false none .nosub none none none) .nil) 0 0

def c6Schema : Schema :=
  .mk (.cons "sub" (.mk none false false false none (.sub c6SubSchema) none none none) .nil) 0 0

def c6Orig : DocV := .cons "sub" (.vDoc (.cons "a" (.vInt 1) .nil)) .nil

/-- C6 (code bug witness): update-mode Prepare on a nested-schema field
whose original sub-document is stored as a plain map.  The payload here
is deep-equal to the original ({sub: {a: 1}}), so preparing the
sub-payload against the original's sub-document would produce an empty
sub-change-set and sub-base {a: 1}.  Instead, the type assertion at
schema.go line 163 expects *map[string]interface{} and fails on the
plain map, an empty map is substituted for the sub-original, and the
recursion records every sub-payload field as a change: changes =
{sub: {a: 1}} and base = {sub: {}}. -/
theorem c6_sub_original_ignored :
    Schema.prepare c6Schema c6Orig (some c6Orig) false =
      Except.ok (.cons "sub" (.vDoc (.cons "a" (.vInt 1) .nil)) .nil,
        .cons "sub" (.vDoc .nil) .nil) := rfl

/-
Embedding of the resource request orchestrator (package rest, the
request-handler source file).  External collaborators are supplied as
inputs: route.lookup() resolution, the storage backend results
(Find/Insert/Update/Delete/Clear), decoded payloads and parsed headers.
The embedding reproduces the handler's control flow, recording in order
the response actions it emits and the backend calls it makes.  Missing
`return` statements after sendError in the Go source are reproduced
exactly as written.
-/

structure RestErr where
  code : Int
  message : String

structure Item where
  ident : Int
  etag : String
  updated : Int

/-- Modelled from the spec: NotFoundError is declared in a rest-package
file that is not among the provided sources; the spec's status mapping
gives GET single -> 404. -/
def notFoundError : RestErr := ⟨404, "Not Found"⟩

inductive RestEv where
  | errResp : RestErr → RestEv
  | itemResp : Int → Item → RestEv
  | listResp : List Item → RestEv
  | sendResp : Int → Bool → RestEv
  | headerXTotal : Int → RestEv
  | callFind : RestEv
  | callInsert : RestEv
  | callUpdate : RestEv
  | callDelete : RestEv
  | callClear : RestEv

/-- handleListRequestDELETE (request-handler lines 181-192).  Note the
Go source has no `return` after sendError on a lookup error, so the
backend Clear call is reached in every case. -/
def handleListRequestDELETE (lookupRes : Except RestErr Unit)
    (clearRes : Except RestErr Int) : List RestEv :=
  (match lookupRes with
   | .error e => [RestEv.errResp e]
   | .ok _ => []) ++
  (RestEv.callClear ::
    (match clearRes with
     | .error e => [RestEv.errResp e]
     | .ok total => [RestEv.headerXTotal total, RestEv.sendResp 204 true]))

/-- handleItemRequestGET (request-handler lines 195-225).  inm is the
raw If-None-Match header (Go Header.Get returns the empty string when
the header is absent); ims is none when If-Modified-Since is absent,
some none when present but unparseable, some (some t) when it parses to
the instant t.  time.Time Equal/Before on Updated against t becomes
updated ≤ t.  The missing `return` after sendError on a lookup error is
reproduced. -/
def handleItemRequestGET (lookupRes : Except RestErr Unit)
    (findRes : Except RestErr (List Item)) (inm : String)
    (ims : Option (Option Int)) : List RestEv :=
  (match lookupRes with
   | .error e => [RestEv.errResp e]
   | .ok _ => []) ++
  (RestEv.callFind ::
    (match findRes with
     | .error e => [RestEv.errResp e]
     | .ok items =>
       match items with
       | [] => [RestEv.errResp notFoundError]
       | item :: _ =>
         if inm == item.etag then [RestEv.sendResp 304 false]
         else
           match ims with
           | none => [RestEv.itemResp 200 item]
           | some none => [RestEv.errResp ⟨400, "Invalid If-Modified-Since header"⟩]
           | some (some t) =>
             if item.updated ≤ t then [RestEv.sendResp 304 false]
             else [RestEv.itemResp 200 item]))

def pageWithoutLimitMsg : String :=
  "Cannot use \x60page\x27 parameter with no \x60limit\x27 paramter on a resource with no default pagination size"

/-- The tail of handleListRequestGET (lines 131-141): lookup resolution
(this sendError does have a return), then the backend Find, then the
list response. -/
def listGetTail (lookupRes : Except RestErr Unit)
    (findRes : Except RestErr (List Item)) : List RestEv :=
  match lookupRes with
  | .error e => [RestEv.errResp e]
  | .ok _ =>
    RestEv.callFind ::
      (match findRes with
       | .error e => [RestEv.errResp e]
       | .ok items => [RestEv.listResp items])

/-- handleListRequestGET (request-handler lines 101-142).  skipBody is
the HEAD flag; defaultLimit is conf.PaginationDefaultLimit; pageParam /
limitParam are none when the query parameter is absent, some none when
present but unparseable by ParseUint, some (some n) when it parses to n.
The pagination-misuse branch at lines 127-129 sends the 422 error but
has no `return`, so the handler continues into lookup and Find. -/
def handleListRequestGET (skipBody : Bool) (defaultLimit : Int)
    (pageParam limitParam : Option (Option Nat))
    (lookupRes : Except RestErr Unit)
    (findRes : Except RestErr (List Item)) : List RestEv :=
  if skipBody then listGetTail lookupRes findRes
  else
    let perPage : Int := if defaultLimit > 0 then defaultLimit else -1
    match pageParam with
    | some none => [RestEv.errResp ⟨422, "Invalid \x60page\x60 paramter"⟩]
    | _ =>
      let page : Int := match pageParam with
        | some (some i) => (i : Int)
        | _ => 1
      match limitParam with
      | some none => [RestEv.errResp ⟨422, "Invalid \x60limit\x60 paramter"⟩]
      | _ =>
        let perPage : Int := match limitParam with
          | some (some i) => (i : Int)
          | _ => perPage
        (if perPage = -1 ∧ page ≠ 1 then [RestEv.errResp ⟨422, pageWithoutLimitMsg⟩] else []) ++
          listGetTail lookupRes findRes

/-- Resource permission flags, {Read, List, Create, Replace, Update,
Delete, Clear}. -/
structure ResourceConf where
  read : Bool
  list : Bool
  create : Bool
  replace : Bool
  update : Bool
  delete : Bool
  clear : Bool

/-- The Allow methods reported for an item URL by the OPTIONS branch of
handleRoute (request-handler lines 17-33).  As in the source, the
DELETE entry is guarded by isModeAllowed(Update) — a second copy of the
Update check — not by isModeAllowed(Delete). -/
def optionsItemMethods (conf : ResourceConf) : List String :=
  (if conf.read then ["HEAD", "GET"] else []) ++
  (if conf.create || conf.replace then ["PUT"] else []) ++
  (if conf.update then ["PATCH"] else []) ++
  (if conf.update then ["DELETE"] else [])

/-- The method gate of handleRoute's item branch (lines 34-60): which
permission flag admits each method before the per-method handler runs. -/
def routeItemMethodAllowed (conf : ResourceConf) : String → Bool
  | "HEAD" => conf.read
  | "GET" => conf.read
  | "PUT" => conf.create || conf.replace
  | "PATCH" => conf.update
  | "DELETE" => conf.delete
  | _ => false

def c2Err : RestErr := ⟨521, "lookup resolution failed"⟩

/-- C2 (code bug witness): a collection DELETE whose route lookup
resolution fails.  sendError is called with the lookup error, but the
missing return (request-handler lines 182-185) lets the handler fall
through to the backend Clear call, which runs and reports 204 — a
backend mutation after an error response. -/
theorem c2_clear_called_after_error :
    handleListRequestDELETE (.error c2Err) (.ok 3) =
      [.errResp c2Err, .callClear, .headerXTotal 3, .sendResp 204 true] := rfl

/-- C7: item GET with a resolved lookup and a well-formed (or absent)
If-Modified-Since header.  No matching item gives NotFound; a matching
item gives 304 without a body when the If-None-Match tag equals the
item's ETag or the cached modification time is at or after Updated, and
200 with the item otherwise. -/
theorem c7_item_get (items : List Item) (inm : String) (ims : Option (Option Int))
    (hims : ims ≠ some none) :
    (items = [] →
      handleItemRequestGET (.ok ()) (.ok items) inm ims =
        [.callFind, .errResp notFoundError]) ∧
    (∀ it rest2, items = it :: rest2 →
      ((inm = it.etag ∨ (∃ t, ims = some (some t) ∧ it.updated ≤ t)) →
        handleItemRequestGET (.ok ()) (.ok items) inm ims =
          [.callFind, .sendResp 304 false]) ∧
      (inm ≠ it.etag → (∀ t, ims = some (some t) → ¬ (it.updated ≤ t)) →
        handleItemRequestGET (.ok ()) (.ok items) inm ims =
          [.callFind, .itemResp 200 it])) := by
  constructor
  · intro h
    subst h
    rfl
  · intro it rest2 h
    subst h
    constructor
    · intro hcond
      cases hcond with
      | inl he =>
        simp [handleItemRequestGET, he]
      | inr hex =>
        obtain ⟨t, hims2, hle⟩ := hex
        subst hims2
        by_cases he : inm == it.etag
        · simp [handleItemRequestGET, he]
        · simp [handleItemRequestGET, he, hle]
    · intro hne hnot
      have he : (inm == it.etag) = false := by
        cases hb : inm == it.etag with
        | false => rfl
        | true => exact absurd (by simpa using hb) hne
      cases ims with
      | none => simp [handleItemRequestGET, he]
      | some o =>
        cases o with
        | none => exact absurd rfl hims
        | some t =>
          have hnle := hnot t rfl
          simp [handleItemRequestGET, he, hnle]

/-- Witness for C7 at a concrete input: one stored item with ETag E1,
client presents If-None-Match E1 and no If-Modified-Since, and the
response is 304 without a body. -/
theorem c7_item_get_witness :
    handleItemRequestGET (.ok ()) (.ok [⟨1, "E1", 10⟩]) "E1" none =
      [.callFind, .sendResp 304 false] :=
  ((c7_item_get [⟨1, "E1", 10⟩] "E1" none (by simp)).2 ⟨1, "E1", 10⟩ [] rfl).1 (Or.inl rfl)

def c8Item : Item := ⟨1, "E1", 0⟩

/-- C8 (code bug witness): collection GET on a resource with no default
page size (pagination disabled, limit resolves to -1) with ?page=2 and
no limit parameter.  The handler sends the 422 error — whose message is
the longer "Cannot use `page' parameter with no `limit' paramter on a
resource with no default pagination size" — but the branch at
request-handler lines 127-129 has no return, so the handler still
resolves the lookup, calls the backend Find and sends the list. -/
theorem c8_page_without_limit :
    handleListRequestGET false 0 (some (some 2)) none (.ok ()) (.ok [c8Item]) =
      [.errResp ⟨422, pageWithoutLimitMsg⟩, .callFind, .listResp [c8Item]] := rfl

def c9ConfDeleteOnly : ResourceConf := ⟨false, false, false, false, false, true, false⟩

def c9ConfUpdateOnly : ResourceConf := ⟨false, false, false, false, true, false, false⟩

/-- C9 (code bug witness): with only the Delete flag enabled the OPTIONS
capability list for an item URL omits DELETE although the DELETE
dispatch admits the method, and with only the Update flag enabled the
list advertises DELETE although the dispatch refuses it: the OPTIONS
branch guards DELETE with a duplicated isModeAllowed(Update) check
(request-handler lines 30-32) instead of isModeAllowed(Delete). -/
theorem c9_options_delete_flag :
    ("DELETE" ∉ optionsItemMethods c9ConfDeleteOnly) ∧
    routeItemMethodAllowed c9ConfDeleteOnly "DELETE" = true ∧
    ("DELETE" ∈ optionsItemMethods c9ConfUpdateOnly) ∧
    routeItemMethodAllowed c9ConfUpdateOnly "DELETE" = false := by
  refine ⟨?_, rfl, ?_, rfl⟩
  · intro h
    simp [optionsItemMethods, c9ConfDeleteOnly] at h
  · simp [optionsItemMethods, c9ConfUpdateOnly]

theorem DocV.get_erase_ne : ∀ (d : DocV) (k key : String), key ≠ k →
    (d.erase k).get key = d.get key
  | .nil, _, _, _ => rfl
  | .cons k2 v2 rest, k, key, hne => by
    simp only [DocV.erase]
    by_cases he : k2 = k
    · rw [if_pos he]
      simp only [DocV.get]
      rw [if_neg (fun hc : k2 = key => hne (he ▸ hc).symm)]
    · rw [if_neg he]
      simp only [DocV.get]
      by_cases h2 : k2 = key
      · rw [if_pos h2, if_pos h2]
      · rw [if_neg h2, if_neg h2]
        exact DocV.get_erase_ne rest k key hne

theorem DocV.wf_erase : ∀ (d : DocV) (k : String), d.wf = true → (d.erase k).wf = true
  | .nil, _, _ => rfl
  | .cons k2 v2 rest, k, hwf => by
    simp only [DocV.erase]
    by_cases he : k2 = k
    · rw [if_pos he]
      exact DocV.wf_tail hwf
    · rw [if_neg he]
      have hrest := DocV.wf_erase rest k (DocV.wf_tail hwf)
      cases rest with
      | nil => rfl
      | cons k3 v3 r3 =>
        simp only [DocV.erase] at hrest ⊢
        by_cases h3 : k3 = k
        · rw [if_pos h3] at hrest ⊢
          cases r3 with
          | nil => rfl
          | cons k4 v4 r4 =>
            refine DocV.wf_cons ?_ hrest
            exact strLt_trans (DocV.wf_head_lt hwf) (DocV.wf_head_lt (DocV.wf_tail hwf))
        · rw [if_neg h3] at hrest ⊢
          exact DocV.wf_cons (DocV.wf_head_lt hwf) hrest

theorem DocV.insert_self_eq : ∀ (d : DocV) (k : String) (v : Value),
    d.wf = true → d.get k = some v → d.insert k v = d
  | .nil, k, v, _, hget => Option.noConfusion hget
  | .cons k2 v2 rest, k, v, hwf, hget => by
    simp only [DocV.get] at hget
    simp only [DocV.insert]
    by_cases he : k2 = k
    · subst he
      rw [if_pos rfl] at hget
      rw [if_neg (by rw [strLt_irrefl]; exact Bool.noConfusion), if_pos rfl]
      cases hget
      rfl
    · rw [if_neg (fun hc : k2 = k => he hc)] at hget
      have hne2 : ¬ k = k2 := fun hc => he hc.symm
      have hlt : strLt k k2 = true → False := by
        intro hlt
        rw [DocV.get_none_of_lt rest k (DocV.wf_tail hwf)
          (fun k3 v3 r3 hr => by subst hr; exact strLt_trans hlt (DocV.wf_head_lt hwf))] at hget
        exact Option.noConfusion hget
      rw [if_neg (fun hc => hlt hc), if_neg hne2]
      rw [DocV.insert_self_eq rest k v (DocV.wf_tail hwf) hget]

/-- Merging an empty change set leaves the base untouched. -/
theorem DocV.overlay_nil (b : DocV) : DocV.overlay b .nil = b := rfl

theorem DocV.overlay_get_none : ∀ (c b : DocV) (f : String),
    c.get f = none → (DocV.overlay b c).get f = b.get f
  | .nil, _, _, _ => rfl
  | .cons k v rest, b, f, hget => by
    simp only [DocV.get] at hget
    by_cases he : k = f
    · rw [if_pos he] at hget
      exact Option.noConfusion hget
    · rw [if_neg he] at hget
      have hne : f ≠ k := fun hc => he hc.symm
      cases v with
      | tomb =>
        simp only [DocV.overlay]
        rw [DocV.overlay_get_none rest (b.erase k) f hget, DocV.get_erase_ne b k f hne]
      | null =>
        simp only [DocV.overlay]
        rw [DocV.overlay_get_none rest _ f hget, DocV.get_insert_ne b k f _ hne]
      | vBool x =>
        simp only [DocV.overlay]
        rw [DocV.overlay_get_none rest _ f hget, DocV.get_insert_ne b k f _ hne]
      | vInt x =>
        simp only [DocV.overlay]
        rw [DocV.overlay_get_none rest _ f hget, DocV.get_insert_ne b k f _ hne]
      | vStr x =>
        simp only [DocV.overlay]
        rw [DocV.overlay_get_none rest _ f hget, DocV.get_insert_ne b k f _ hne]
      | vDoc x =>
        simp only [DocV.overlay]
        rw [DocV.overlay_get_none rest _ f hget, DocV.get_insert_ne b k f _ hne]
      | vPtrDoc x =>
        simp only [DocV.overlay]
        rw [DocV.overlay_get_none rest _ f hget, DocV.get_insert_ne b k f _ hne]

theorem DocV.overlay_get_some : ∀ (c b : DocV) (f : String) (w : Value),
    c.wf = true → c.get f = some w → w ≠ .tomb →
    (DocV.overlay b c).get f = some w
  | .nil, _, _, _, _, hget, _ => Option.noConfusion hget
  | .cons k v rest, b, f, w, hwf, hget, hw => by
    simp only [DocV.get] at hget
    by_cases he : k = f
    · subst he
      rw [if_pos rfl] at hget
      cases hget
      have hrest : rest.get k = none :=
        DocV.get_none_of_lt rest k (DocV.wf_tail hwf)
          (fun k3 v3 r3 hr => by subst hr; exact DocV.wf_head_lt hwf)
      cases v with
      | tomb => exact absurd rfl hw
      | null =>
        simp only [DocV.overlay]
        rw [DocV.overlay_get_none rest _ k hrest, DocV.get_insert_self]
      | vBool x =>
        simp only [DocV.overlay]
        rw [DocV.overlay_get_none rest _ k hrest, DocV.get_insert_self]
      | vInt x =>
        simp only [DocV.overlay]
        rw [DocV.overlay_get_none rest _ k hrest, DocV.get_insert_self]
      | vStr x =>
        simp only [DocV.overlay]
        rw [DocV.overlay_get_none rest _ k hrest, DocV.get_insert_self]
      | vDoc x =>
        simp only [DocV.overlay]
        rw [DocV.overlay_get_none rest _ k hrest, DocV.get_insert_self]
      | vPtrDoc x =>
        simp only [DocV.overlay]
        rw [DocV.overlay_get_none rest _ k hrest, DocV.get_insert_self]
    · rw [if_neg he] at hget
      cases v with
      | tomb => exact DocV.overlay_get_some rest (b.erase k) f w (DocV.wf_tail hwf) hget hw
      | null => exact DocV.overlay_get_some rest (b.insert k .null) f w (DocV.wf_tail hwf) hget hw
      | vBool x =>
        exact DocV.overlay_get_some rest (b.insert k (.vBool x)) f w (DocV.wf_tail hwf) hget hw
      | vInt x =>
        exact DocV.overlay_get_some rest (b.insert k (.vInt x)) f w (DocV.wf_tail hwf) hget hw
      | vStr x =>
        exact DocV.overlay_get_some rest (b.insert k (.vStr x)) f w (DocV.wf_tail hwf) hget hw
      | vDoc x =>
        exact DocV.overlay_get_some rest (b.insert k (.vDoc x)) f w (DocV.wf_tail hwf) hget hw
      | vPtrDoc x =>
        exact DocV.overlay_get_some rest (b.insert k (.vPtrDoc x)) f w (DocV.wf_tail hwf) hget hw

theorem DocV.overlay_wf : ∀ (c b : DocV), b.wf = true → (DocV.overlay b c).wf = true
  | .nil, _, hwf => hwf
  | .cons k v rest, b, hwf => by
    cases v with
    | tomb => exact DocV.overlay_wf rest _ (DocV.wf_erase b k hwf)
    | null => exact DocV.overlay_wf rest _ (DocV.wf_insert b k _ hwf)
    | vBool x => exact DocV.overlay_wf rest _ (DocV.wf_insert b k _ hwf)
    | vInt x => exact DocV.overlay_wf rest _ (DocV.wf_insert b k _ hwf)
    | vStr x => exact DocV.overlay_wf rest _ (DocV.wf_insert b k _ hwf)
    | vDoc x => exact DocV.overlay_wf rest _ (DocV.wf_insert b k _ hwf)
    | vPtrDoc x => exact DocV.overlay_wf rest _ (DocV.wf_insert b k _ hwf)

/-- Canonical well-formedness of the error map (strictly sorted keys);
every error map the engine builds starts from nil and grows through
addFieldError/addAll, which preserve it. -/
def ErrMap.wfE : ErrMap → Bool
  | .nil => true
  | .cons _ _ .nil => true
  | .cons k _ (.cons k2 l2 rest) => strLt k k2 && ErrMap.wfE (.cons k2 l2 rest)

theorem ErrMap.wfE_tail {k : String} {l : ErrList} {rest : ErrMap}
    (h : (ErrMap.cons k l rest).wfE = true) : rest.wfE = true := by
  cases rest with
  | nil => rfl
  | cons k2 l2 r2 =>
    simp only [ErrMap.wfE, Bool.and_eq_true] at h
    exact h.2

theorem ErrMap.wfE_head_lt {k k2 : String} {l l2 : ErrList} {rest : ErrMap}
    (h : (ErrMap.cons k l (ErrMap.cons k2 l2 rest)).wfE = true) : strLt k k2 = true := by
  simp only [ErrMap.wfE, Bool.and_eq_true] at h
  exact h.1

theorem ErrMap.wfE_cons {k k2 : String} {l l2 : ErrList} {rest : ErrMap}
    (h1 : strLt k k2 = true) (h2 : (ErrMap.cons k2 l2 rest).wfE = true) :
    (ErrMap.cons k l (ErrMap.cons k2 l2 rest)).wfE = true := by
  simp only [ErrMap.wfE, Bool.and_eq_true]
  exact ⟨h1, h2⟩

theorem ErrMap.getL_none_of_lt : ∀ (e : ErrMap) (k : String),
    e.wfE = true → (∀ k2 l2 r2, e = ErrMap.cons k2 l2 r2 → strLt k k2 = true) →
    e.getL k = .nil
  | .nil, _, _, _ => rfl
  | .cons k2 l2 rest, k, hwf, hlt => by
    have hk : strLt k k2 = true := hlt k2 l2 rest rfl
    simp only [ErrMap.getL]
    rw [if_neg (fun hc : k2 = k => strLt_ne hk hc.symm)]
    refine ErrMap.getL_none_of_lt rest k (ErrMap.wfE_tail hwf) ?_
    intro k3 l3 r3 hr
    subst hr
    exact strLt_trans hk (ErrMap.wfE_head_lt hwf)

theorem ErrMap.wfE_addFieldError : ∀ (e : ErrMap) (k : String) (it : ErrItem),
    e.wfE = true → (e.addFieldError k it).wfE = true
  | .nil, _, _, _ => rfl
  | .cons k2 l2 rest, k, it, hwf => by
    simp only [ErrMap.addFieldError]
    by_cases hlt : strLt k k2 = true
    · rw [if_pos hlt]
      exact ErrMap.wfE_cons hlt hwf
    · rw [if_neg hlt]
      by_cases he : k = k2
      · rw [if_pos he]
        subst he
        cases rest with
        | nil => rfl
        | cons k3 l3 r3 => exact ErrMap.wfE_cons (ErrMap.wfE_head_lt hwf) (ErrMap.wfE_tail hwf)
      · rw [if_neg he]
        have hk2k : strLt k2 k = true :=
          strLt_total (by revert hlt; cases strLt k k2 <;> simp) he
        have hrest := ErrMap.wfE_addFieldError rest k it (ErrMap.wfE_tail hwf)
        cases hr : rest.addFieldError k it with
        | nil => rfl
        | cons k3 l3 r3 =>
          rw [hr] at hrest
          refine ErrMap.wfE_cons ?_ hrest
          cases rest with
          | nil =>
            simp only [ErrMap.addFieldError] at hr
            cases hr
            exact hk2k
          | cons k4 l4 r4 =>
            simp only [ErrMap.addFieldError] at hr
            by_cases hlt4 : strLt k k4 = true
            · rw [if_pos hlt4] at hr
              cases hr
              exact hk2k
            · rw [if_neg hlt4] at hr
              by_cases he4 : k = k4
              · rw [if_pos he4] at hr
                cases hr
                exact he4 ▸ hk2k
              · rw [if_neg he4] at hr
                cases hr
                exact ErrMap.wfE_head_lt hwf

theorem ErrMap.getL_addFieldError : ∀ (e : ErrMap) (k2 : String) (it : ErrItem) (k : String),
    e.wfE = true →
    (e.addFieldError k2 it).getL k =
      if k2 = k then (e.getL k).append (ErrList.one it) else e.getL k
  | .nil, k2, it, k, _ => by
    simp only [ErrMap.addFieldError, ErrMap.getL]
    by_cases he : k2 = k
    · rw [if_pos he, if_pos he]
      rfl
    · rw [if_neg he, if_neg he]
  | .cons kh lh rest, k2, it, k, hwf => by
    have hrec := ErrMap.getL_addFieldError rest k2 it k (ErrMap.wfE_tail hwf)
    simp only [ErrMap.addFieldError]
    by_cases hlt : strLt k2 kh = true
    · rw [if_pos hlt]
      have hnil : (ErrMap.cons kh lh rest).getL k2 = .nil :=
        ErrMap.getL_none_of_lt _ k2 hwf (fun k3 l3 r3 hr => by cases hr; exact hlt)
      by_cases he : k2 = k
      · subst he
        rw [hnil]
        simp [ErrMap.getL, ErrList.append, ErrList.one]
      · rw [if_neg he]
        simp only [ErrMap.getL]
        rw [if_neg he]
    · rw [if_neg hlt]
      by_cases he : k2 = kh
      · subst he
        rw [if_pos rfl]
        simp only [ErrMap.getL]
        by_cases hk : k2 = k
        · subst hk
          simp
        · simp [hk]
      · rw [if_neg he]
        simp only [ErrMap.getL]
        by_cases hk : kh = k
        · have hk2 : ¬ k2 = k := fun hc => he (hc.trans hk.symm)
          simp [hk, hk2]
        · simp only [if_neg hk]
          rw [hrec]

theorem ErrList.hasMsgIn_append : ∀ (l l2 : ErrList) (s : String),
    (l.append l2).hasMsgIn s = (l.hasMsgIn s || l2.hasMsgIn s)
  | .nil, l2, s => rfl
  | .cons (.msg m) r, l2, s => by
    simp only [ErrList.append, ErrList.hasMsgIn, ErrList.hasMsgIn_append r l2 s, Bool.or_assoc]
  | .cons (.nested e) r, l2, s => by
    simp only [ErrList.append, ErrList.hasMsgIn, ErrList.hasMsgIn_append r l2 s]

theorem ErrList.hasMsgIn_one_msg (m s : String) :
    (ErrList.one (.msg m)).hasMsgIn s = (m == s) := by
  simp [ErrList.one, ErrList.hasMsgIn]

theorem ErrList.hasMsgIn_one_nested (e : ErrMap) (s : String) :
    (ErrList.one (.nested e)).hasMsgIn s = false := rfl

theorem ErrMap.wfE_addAll : ∀ (e : ErrMap) (k : String) (nl : ErrList),
    e.wfE = true → (e.addAll k nl).wfE = true
  | .nil, _, _, _ => rfl
  | .cons k2 l2 rest, k, nl, hwf => by
    simp only [ErrMap.addAll]
    by_cases hlt : strLt k k2 = true
    · rw [if_pos hlt]
      exact ErrMap.wfE_cons hlt hwf
    · rw [if_neg hlt]
      by_cases he : k = k2
      · rw [if_pos he]
        subst he
        cases rest with
        | nil => rfl
        | cons k3 l3 r3 => exact ErrMap.wfE_cons (ErrMap.wfE_head_lt hwf) (ErrMap.wfE_tail hwf)
      · rw [if_neg he]
        have hk2k : strLt k2 k = true :=
          strLt_total (by revert hlt; cases strLt k k2 <;> simp) he
        have hrest := ErrMap.wfE_addAll rest k nl (ErrMap.wfE_tail hwf)
        cases hr : rest.addAll k nl with
        | nil => rfl
        | cons k3 l3 r3 =>
          rw [hr] at hrest
          refine ErrMap.wfE_cons ?_ hrest
          cases rest with
          | nil =>
            simp only [ErrMap.addAll] at hr
            cases hr
            exact hk2k
          | cons k4 l4 r4 =>
            simp only [ErrMap.addAll] at hr
            by_cases hlt4 : strLt k k4 = true
            · rw [if_pos hlt4] at hr
              cases hr
              exact hk2k
            · rw [if_neg hlt4] at hr
              by_cases he4 : k = k4
              · rw [if_pos he4] at hr
                cases hr
                exact he4 ▸ hk2k
              · rw [if_neg he4] at hr
                cases hr
                exact ErrMap.wfE_head_lt hwf

theorem ErrMap.getL_addAll : ∀ (e : ErrMap) (k2 : String) (nl : ErrList) (k : String),
    e.wfE = true →
    (e.addAll k2 nl).getL k = if k2 = k then (e.getL k).append nl else e.getL k
  | .nil, k2, nl, k, _ => by
    simp only [ErrMap.addAll, ErrMap.getL]
    by_cases he : k2 = k
    · rw [if_pos he, if_pos he]
      rfl
    · rw [if_neg he, if_neg he]
  | .cons kh lh rest, k2, nl, k, hwf => by
    have hrec := ErrMap.getL_addAll rest k2 nl k (ErrMap.wfE_tail hwf)
    simp only [ErrMap.addAll]
    by_cases hlt : strLt k2 kh = true
    · rw [if_pos hlt]
      have hnil : (ErrMap.cons kh lh rest).getL k2 = .nil :=
        ErrMap.getL_none_of_lt _ k2 hwf (fun k3 l3 r3 hr => by cases hr; exact hlt)
      by_cases he : k2 = k
      · subst he
        rw [hnil]
        simp [ErrMap.getL, ErrList.append, ErrList.one]
      · rw [if_neg he]
        simp only [ErrMap.getL]
        rw [if_neg he]
    · rw [if_neg hlt]
      by_cases he : k2 = kh
      · subst he
        rw [if_pos rfl]
        simp only [ErrMap.getL]
        by_cases hk : k2 = k
        · subst hk
          simp
        · simp [hk]
      · rw [if_neg he]
        simp only [ErrMap.getL]
        by_cases hk : kh = k
        · have hk2 : ¬ k2 = k := fun hc => he (hc.trans hk.symm)
          simp [hk, hk2]
        · simp only [if_neg hk]
          rw [hrec]

theorem ErrMap.wfE_merge : ∀ (e2 e : ErrMap), e.wfE = true → (e.merge e2).wfE = true
  | .nil, e, hwf => hwf
  | .cons k l rest, e, hwf =>
    ErrMap.wfE_merge rest _ (ErrMap.wfE_addAll e k l hwf)

/-- Adding an error never removes an existing message. -/
theorem ErrMap.hasMsg_mono_add (e : ErrMap) (k2 : String) (it : ErrItem) (k s : String)
    (hwf : e.wfE = true) (h : e.hasMsg k s = true) :
    (e.addFieldError k2 it).hasMsg k s = true := by
  simp only [ErrMap.hasMsg] at h ⊢
  rw [ErrMap.getL_addFieldError e k2 it k hwf]
  by_cases he : k2 = k
  · rw [if_pos he, ErrList.hasMsgIn_append, h]
    rfl
  · rw [if_neg he]
    exact h

theorem ErrMap.hasMsg_mono_merge : ∀ (e2 e : ErrMap) (k s : String),
    e.wfE = true → e.hasMsg k s = true → (e.merge e2).hasMsg k s = true
  | .nil, e, k, s, _, h => h
  | .cons k2 l2 rest, e, k, s, hwf, h => by
    refine ErrMap.hasMsg_mono_merge rest _ k s (ErrMap.wfE_addAll e k2 l2 hwf) ?_
    simp only [ErrMap.hasMsg] at h ⊢
    rw [ErrMap.getL_addAll e k2 l2 k hwf]
    by_cases he : k2 = k
    · rw [if_pos he, ErrList.hasMsgIn_append, h]
      rfl
    · rw [if_neg he]
      exact h

/-- No list of the map contains the plain message s. -/
def ErrMap.noMsg : ErrMap → String → Bool
  | .nil, _ => true
  | .cons _ l rest, s => !(l.hasMsgIn s) && ErrMap.noMsg rest s

theorem ErrMap.noMsg_getL : ∀ (e : ErrMap) (k s : String),
    e.noMsg s = true → (e.getL k).hasMsgIn s = false
  | .nil, _, _, _ => rfl
  | .cons k2 l2 rest, k, s, h => by
    simp only [ErrMap.noMsg, Bool.and_eq_true, Bool.not_eq_true'] at h
    simp only [ErrMap.getL]
    by_cases he : k2 = k
    · rw [if_pos he]
      exact h.1
    · rw [if_neg he]
      exact ErrMap.noMsg_getL rest k s h.2

theorem ErrMap.hasMsg_merge_noMsg : ∀ (e2 e : ErrMap) (k s : String),
    e.wfE = true → e2.noMsg s = true →
    (e.merge e2).hasMsg k s = e.hasMsg k s
  | .nil, e, k, s, _, _ => rfl
  | .cons k2 l2 rest, e, k, s, hwf, hno => by
    simp only [ErrMap.noMsg, Bool.and_eq_true, Bool.not_eq_true'] at hno
    rw [show (e.merge (ErrMap.cons k2 l2 rest)) = (e.addAll k2 l2).merge rest from rfl]
    rw [ErrMap.hasMsg_merge_noMsg rest _ k s (ErrMap.wfE_addAll e k2 l2 hwf) hno.2]
    simp only [ErrMap.hasMsg]
    rw [ErrMap.getL_addAll e k2 l2 k hwf]
    by_cases he : k2 = k
    · rw [if_pos he, ErrList.hasMsgIn_append, hno.1, Bool.or_false]
    · rw [if_neg he]

theorem ErrMap.noMsg_add : ∀ (e : ErrMap) (k : String) (m s : String),
    (m == s) = false → e.noMsg s = true →
    (e.addFieldError k (.msg m)).noMsg s = true
  | .nil, k, m, s, hne, h => by
    simp only [ErrMap.addFieldError, ErrMap.noMsg, ErrList.hasMsgIn_one_msg, hne]
    rfl
  | .cons k2 l2 rest, k, m, s, hne, h => by
    have ih := fun h2 => ErrMap.noMsg_add rest k m s hne h2
    simp only [ErrMap.noMsg, Bool.and_eq_true, Bool.not_eq_true'] at h
    simp only [ErrMap.addFieldError]
    by_cases hlt : strLt k k2 = true
    · rw [if_pos hlt]
      simp only [ErrMap.noMsg, ErrList.hasMsgIn_one_msg, hne, Bool.and_eq_true,
        Bool.not_eq_true']
      exact ⟨trivial, h⟩
    · rw [if_neg hlt]
      by_cases he : k = k2
      · rw [if_pos he]
        simp only [ErrMap.noMsg, Bool.and_eq_true, Bool.not_eq_true']
        refine ⟨?_, h.2⟩
        rw [ErrList.hasMsgIn_append, h.1, ErrList.hasMsgIn_one_msg, hne]
        rfl
      · rw [if_neg he]
        simp only [ErrMap.noMsg, Bool.and_eq_true, Bool.not_eq_true']
        exact ⟨h.1, ih h.2⟩

/-- Each per-field stage touches only its own field slot: prepNew. -/
theorem prepNew_frame (name : String) (fd : FieldDef) (vo : Option Value) (c b : DocV)
    (f : String) (hne : f ≠ name) :
    (prepNew name fd vo c b).1.get f = c.get f ∧
    (prepNew name fd vo c b).2.get f = b.get f ∧
    (c.wf = true → (prepNew name fd vo c b).1.wf = true) ∧
    (b.wf = true → (prepNew name fd vo c b).2.wf = true) := by
  unfold prepNew
  refine ⟨?_, ?_, ?_, ?_⟩ <;>
    (split <;> first
      | rfl
      | exact fun h => h
      | exact DocV.get_insert_ne _ _ _ _ hne
      | exact fun h => DocV.wf_insert _ _ _ h
      | (split <;> first
          | rfl
          | exact fun h => h
          | exact DocV.get_insert_ne _ _ _ _ hne
          | exact fun h => DocV.wf_insert _ _ _ h))

/-- Each per-field stage touches only its own field slot: prepDiff. -/
theorem prepDiff_frame (name : String) (fd : FieldDef) (vo oOpt : Option Value) (r : Bool)
    (c b : DocV) (f : String) (hne : f ≠ name) :
    (prepDiff name fd vo oOpt r c b).1.get f = c.get f ∧
    (prepDiff name fd vo oOpt r c b).2.get f = b.get f ∧
    (c.wf = true → (prepDiff name fd vo oOpt r c b).1.wf = true) ∧
    (b.wf = true → (prepDiff name fd vo oOpt r c b).2.wf = true) := by
  unfold prepDiff
  refine ⟨?_, ?_, ?_, ?_⟩ <;>
    (split <;> first
      | rfl
      | exact fun h => h
      | exact DocV.get_insert_ne _ _ _ _ hne
      | exact fun h => DocV.wf_insert _ _ _ h
      | (split <;> first
          | rfl
          | exact fun h => h
          | exact DocV.get_insert_ne _ _ _ _ hne
          | exact fun h => DocV.wf_insert _ _ _ h
          | (split <;> first
              | rfl
              | exact fun h => h
              | exact DocV.get_insert_ne _ _ _ _ hne
              | exact fun h => DocV.wf_insert _ _ _ h
              | (split <;> first
                  | rfl
                  | exact fun h => h
                  | exact DocV.get_insert_ne _ _ _ _ hne
                  | exact fun h => DocV.wf_insert _ _ _ h
                  | (split <;> first
                      | rfl
                      | exact fun h => h
                      | exact DocV.get_insert_ne _ _ _ _ hne
                      | exact fun h => DocV.wf_insert _ _ _ h)))))

/-- Each per-field stage touches only its own field slot: the hooks. -/
theorem prepHookStage_frame (name : String) (fd : FieldDef) (orig : Option DocV)
    (c b : DocV) (f : String) (hne : f ≠ name) :
    (prepHookStage name fd orig c b).1.get f = c.get f ∧
    (prepHookStage name fd orig c b).2.get f = b.get f ∧
    (c.wf = true → (prepHookStage name fd orig c b).1.wf = true) ∧
    (b.wf = true → (prepHookStage name fd orig c b).2.wf = true) := by
  unfold prepHookStage
  refine ⟨?_, ?_, ?_, ?_⟩ <;>
    (split <;> first
      | rfl
      | exact fun h => h
      | exact DocV.get_insert_ne _ _ _ _ hne
      | exact fun h => DocV.wf_insert _ _ _ h
      | (split <;> first
          | rfl
          | exact fun h => h
          | exact DocV.get_insert_ne _ _ _ _ hne
          | exact DocV.get_erase_ne _ _ _ hne
          | exact fun h => DocV.wf_insert _ _ _ h
          | exact fun h => DocV.wf_erase _ _ h))

/-- Each per-field stage touches only its own field slot: the
sub-schema stage. -/
theorem SubSchema.prepSubStage_frame (name : String) (sub : SubSchema) (vo : Option Value)
    (orig : Option DocV) (r : Bool) (c b : DocV) (f : String) (hne : f ≠ name)
    (c' b' : DocV) (h : SubSchema.prepSubStage name sub vo orig r c b = .ok (c', b')) :
    c'.get f = c.get f ∧ b'.get f = b.get f ∧
    (c.wf = true → c'.wf = true) ∧ (b.wf = true → b'.wf = true) := by
  cases sub with
  | nosub =>
    simp only [SubSchema.prepSubStage, pure, Except.pure] at h
    cases h
    exact ⟨rfl, rfl, fun h => h, fun h => h⟩
  | sub ss =>
    cases vo with
    | none =>
      simp only [SubSchema.prepSubStage] at h
      rcases hp : Schema.prepare ss DocV.nil (subOriginalOf name orig) r with e | ⟨sc, sb⟩ <;>
        rw [hp] at h
      · simp [Bind.bind, Except.bind] at h
      · simp only [Bind.bind, Except.bind] at h
        by_cases hemp : (sc.isEmpty && sb.isEmpty) = true
        · rw [if_pos hemp] at h
          simp only [pure, Except.pure] at h
          cases h
          exact ⟨rfl, rfl, fun h => h, fun h => h⟩
        · rw [if_neg hemp] at h
          simp only [pure, Except.pure] at h
          cases h
          exact ⟨DocV.get_insert_ne _ _ _ _ hne, DocV.get_insert_ne _ _ _ _ hne,
            fun h => DocV.wf_insert _ _ _ h, fun h => DocV.wf_insert _ _ _ h⟩
    | some v =>
      cases v with
      | vDoc m =>
        simp only [SubSchema.prepSubStage] at h
        rcases hp : Schema.prepare ss m (subOriginalOf name orig) r with e | ⟨sc, sb⟩ <;>
          rw [hp] at h
        · exact Except.noConfusion h
        · simp only [pure, Except.pure] at h
          cases h
          exact ⟨DocV.get_insert_ne _ _ _ _ hne, DocV.get_insert_ne _ _ _ _ hne,
            fun h => DocV.wf_insert _ _ _ h, fun h => DocV.wf_insert _ _ _ h⟩
      | null =>
        simp only [SubSchema.prepSubStage, pure, Except.pure] at h
        cases h
        exact ⟨rfl, rfl, fun h => h, fun h => h⟩
      | tomb =>
        simp only [SubSchema.prepSubStage, pure, Except.pure] at h
        cases h
        exact ⟨rfl, rfl, fun h => h, fun h => h⟩
      | vBool x =>
        simp only [SubSchema.prepSubStage, pure, Except.pure] at h
        cases h
        exact ⟨rfl, rfl, fun h => h, fun h => h⟩
      | vInt x =>
        simp only [SubSchema.prepSubStage, pure, Except.pure] at h
        cases h
        exact ⟨rfl, rfl, fun h => h, fun h => h⟩
      | vStr x =>
        simp only [SubSchema.prepSubStage, pure, Except.pure] at h
        cases h
        exact ⟨rfl, rfl, fun h => h, fun h => h⟩
      | vPtrDoc x =>
        simp only [SubSchema.prepSubStage, pure, Except.pure] at h
        cases h
        exact ⟨rfl, rfl, fun h => h, fun h => h⟩

theorem subOriginalOf_some (name : String) (o : DocV) :
    ∃ so, subOriginalOf name (some o) = some so := by
  show ∃ so, (match o.get name with
    | some (.vPtrDoc su) => some su
    | _ => some DocV.nil) = some so
  rcases hg : o.get name with _ | v
  · exact ⟨DocV.nil, rfl⟩
  · cases v with
    | vPtrDoc su => exact ⟨su, rfl⟩
    | null => exact ⟨DocV.nil, rfl⟩
    | tomb => exact ⟨DocV.nil, rfl⟩
    | vBool x => exact ⟨DocV.nil, rfl⟩
    | vInt x => exact ⟨DocV.nil, rfl⟩
    | vStr x => exact ⟨DocV.nil, rfl⟩
    | vDoc x => exact ⟨DocV.nil, rfl⟩

theorem exceptOkIte (cond : Prop) [Decidable cond] (x y : DocV × DocV) :
    ∃ out, (if cond then (pure x : Except String (DocV × DocV)) else pure y) = .ok out := by
  by_cases h : cond
  · rw [if_pos h]
    exact ⟨x, rfl⟩
  · rw [if_neg h]
    exact ⟨y, rfl⟩

/-
The only fatal condition of Prepare is replace=true without an
original (schema.go lines 107-109); with an original present, Prepare
always returns: sub-schema recursions receive a non-nil sub-original.
-/

mutual

theorem Schema.prepare_ok : ∀ (s : Schema) (p o : DocV) (r : Bool),
    ∃ out, Schema.prepare s p (some o) r = .ok out
  | .mk fl minL maxL, p, o, r => by
    obtain ⟨⟨c, b⟩, h⟩ := FieldList.prepFields_ok fl p o r .nil .nil
    refine ⟨(FieldList.outOfSchema fl p c, b), ?_⟩
    simp only [Schema.prepare]
    rw [h]
    rfl

theorem FieldList.prepFields_ok : ∀ (fl : FieldList) (p o : DocV) (r : Bool) (c b : DocV),
    ∃ out, FieldList.prepFields fl p (some o) r c b = .ok out
  | .nil, _, _, _, c, b => ⟨(c, b), rfl⟩
  | .cons n f rest, p, o, r, c, b => by
    obtain ⟨⟨c1, b1⟩, h1⟩ := FieldDef.prepOne_ok n f p o r c b
    obtain ⟨out, h2⟩ := FieldList.prepFields_ok rest p o r c1 b1
    refine ⟨out, ?_⟩
    simp only [FieldList.prepFields]
    rw [h1]
    exact h2

theorem FieldDef.prepOne_ok : ∀ (n : String) (f : FieldDef) (p o : DocV) (r : Bool)
    (c b : DocV), ∃ out, FieldDef.prepOne n f p (some o) r c b = .ok out
  | n, .mk dflt req ro hid valid sub onini onupd dep, p, o, r, c, b => by
    rcases hpd : prepDiff n (.mk dflt req ro hid valid sub onini onupd dep) (p.get n)
        (o.get n) r c b with ⟨d1, d2⟩
    obtain ⟨⟨c2, b2⟩, h2⟩ := SubSchema.prepSubStage_ok n sub (p.get n) o r d1 d2
    refine ⟨prepHookStage n (.mk dflt req ro hid valid sub onini onupd dep) (some o) c2 b2, ?_⟩
    simp only [FieldDef.prepOne]
    rw [hpd]
    show (SubSchema.prepSubStage n sub (p.get n) (some o) r d1 d2).bind _ = _
    rw [h2]
    rfl

theorem SubSchema.prepSubStage_ok : ∀ (n : String) (sub : SubSchema) (vo : Option Value)
    (o : DocV) (r : Bool) (c b : DocV),
    ∃ out, SubSchema.prepSubStage n sub vo (some o) r c b = .ok out
  | _, .nosub, _, _, _, c, b => ⟨(c, b), rfl⟩
  | n, .sub ss, vo, o, r, c, b => by
    obtain ⟨so, hso⟩ := subOriginalOf_some n o
    cases vo with
    | none =>
      obtain ⟨⟨sc, sb⟩, hp⟩ := Schema.prepare_ok ss DocV.nil so r
      simp only [SubSchema.prepSubStage, hso, hp]
      exact exceptOkIte _ _ _
    | some v =>
      cases v with
      | vDoc m =>
        obtain ⟨⟨sc, sb⟩, hp⟩ := Schema.prepare_ok ss m so r
        simp only [SubSchema.prepSubStage, hso, hp]
        exact ⟨_, rfl⟩
      | null => exact ⟨(c, b), rfl⟩
      | tomb => exact ⟨(c, b), rfl⟩
      | vBool x => exact ⟨(c, b), rfl⟩
      | vInt x => exact ⟨(c, b), rfl⟩
      | vStr x => exact ⟨(c, b), rfl⟩
      | vPtrDoc x => exact ⟨(c, b), rfl⟩

end

/-- Processing a field named n leaves every other field slot of the
accumulated changes and base untouched, and preserves canonicity. -/
theorem FieldDef.prepOne_frame (n : String) (fd : FieldDef) (p o : DocV) (r : Bool)
    (c b : DocV) (f : String) (hne : f ≠ n) (c' b' : DocV)
    (h : FieldDef.prepOne n fd p (some o) r c b = .ok (c', b')) :
    c'.get f = c.get f ∧ b'.get f = b.get f ∧
    (c.wf = true → c'.wf = true) ∧ (b.wf = true → b'.wf = true) := by
  cases fd with
  | mk dflt req ro hid valid sub onini onupd dep =>
    rcases hpd : prepDiff n (.mk dflt req ro hid valid sub onini onupd dep) (p.get n)
        (o.get n) r c b with ⟨d1, d2⟩
    have hdf := prepDiff_frame n (.mk dflt req ro hid valid sub onini onupd dep) (p.get n)
      (o.get n) r c b f hne
    rw [hpd] at hdf
    simp only [FieldDef.prepOne, hpd, pure_bind] at h
    rcases hsub : SubSchema.prepSubStage n sub (p.get n) (some o) r d1 d2 with e | ⟨c2, b2⟩ <;>
      rw [hsub] at h
    · exact Except.noConfusion
        (show (Except.error e : Except String (DocV × DocV)) = Except.ok (c', b') from h)
    · have h2 : Except.ok (prepHookStage n (.mk dflt req ro hid valid sub onini onupd dep)
          (some o) c2 b2) = Except.ok (c', b') := h
      have h4 := Except.ok.inj h2
      have hc : (prepHookStage n (.mk dflt req ro hid valid sub onini onupd dep)
          (some o) c2 b2).1 = c' := congrArg Prod.fst h4
      have hb : (prepHookStage n (.mk dflt req ro hid valid sub onini onupd dep)
          (some o) c2 b2).2 = b' := congrArg Prod.snd h4
      have hsf := SubSchema.prepSubStage_frame n sub (p.get n) (some o) r d1 d2 f hne c2 b2 hsub
      have hhf := prepHookStage_frame n (.mk dflt req ro hid valid sub onini onupd dep)
        (some o) c2 b2 f hne
      refine ⟨?_, ?_, ?_, ?_⟩
      · rw [← hc, hhf.1, hsf.1, hdf.1]
      · rw [← hb, hhf.2.1, hsf.2.1, hdf.2.1]
      · exact fun hw => hc ▸ hhf.2.2.1 (hsf.2.2.1 (hdf.2.2.1 hw))
      · exact fun hw => hb ▸ hhf.2.2.2 (hsf.2.2.2 (hdf.2.2.2 hw))

theorem FieldList.findF_none_cons {n : String} {f0 : FieldDef} {rest : FieldList}
    {f : String} (h : (FieldList.cons n f0 rest).findF f = none) :
    n ≠ f ∧ rest.findF f = none := by
  simp only [FieldList.findF] at h
  by_cases hn : n = f
  · rw [if_pos hn] at h
    exact Option.noConfusion h
  · rw [if_neg hn] at h
    exact ⟨hn, h⟩

theorem FieldList.namesNodup_cons {n : String} {f0 : FieldDef} {rest : FieldList}
    (h : (FieldList.cons n f0 rest).namesNodup = true) :
    rest.findF n = none ∧ rest.namesNodup = true := by
  simp only [FieldList.namesNodup, Bool.and_eq_true] at h
  exact ⟨Option.isNone_iff_eq_none.mp h.1, h.2⟩

/-- The exact output of the per-field loop body on an update-mode field
without validator, nested schema or update hook, when the payload value
differs (by deep equality) from the original's: the submitted value is
recorded as a change and the original value goes into base. -/
theorem FieldDef.prepOne_diffVal (n : String) (dflt : Option Value) (req ro hid : Bool)
    (onini : Option (Value → Value)) (dep : Option (DocV → Bool)) (p o c b : DocV)
    (w ov : Value) (hp : p.get n = some w) (ho : o.get n = some ov)
    (hne : Value.veq w ov = false) :
    FieldDef.prepOne n (.mk dflt req ro hid none .nosub onini none dep) p (some o) false c b
      = .ok (c.insert n w, b.insert n ov) := by
  have hd : prepDiff n (.mk dflt req ro hid none .nosub onini none dep) (some w) (some ov)
      false c b = (c.insert n w, b.insert n ov) := by
    simp [prepDiff, FieldDef.fvalidator, hne]
  simp [FieldDef.prepOne, hp, ho, hd, SubSchema.prepSubStage, prepHookStage,
    FieldDef.onUpdate, pure, Except.pure, Bind.bind, Except.bind]

/-- The exact output of the per-field loop body on an update-mode field
without validator, nested schema or update hook, when payload and
original agree on the field (including joint absence): no change is
recorded; the original value, when present, goes into base. -/
theorem FieldDef.prepOne_sameVal (n : String) (dflt : Option Value) (req ro hid : Bool)
    (onini : Option (Value → Value)) (dep : Option (DocV → Bool)) (p c b : DocV) :
    FieldDef.prepOne n (.mk dflt req ro hid none .nosub onini none dep) p (some p) false c b
      = .ok (c, match p.get n with | some v => b.insert n v | none => b) := by
  rcases hg : p.get n with _ | v
  · have hd : prepDiff n (.mk dflt req ro hid none .nosub onini none dep) none none
        false c b = (c, b) := by
      simp [prepDiff]
    simp [FieldDef.prepOne, hg, hd, SubSchema.prepSubStage, prepHookStage,
      FieldDef.onUpdate, pure, Except.pure, Bind.bind, Except.bind]
  · have hd : prepDiff n (.mk dflt req ro hid none .nosub onini none dep) (some v) (some v)
        false c b = (c, b.insert n v) := by
      simp [prepDiff, FieldDef.fvalidator, Value.veq_refl v]
    cases v with
    | null =>
      simp [FieldDef.prepOne, hg, hd, SubSchema.prepSubStage, prepHookStage,
        FieldDef.onUpdate, pure, Except.pure, Bind.bind, Except.bind]
    | tomb =>
      simp [FieldDef.prepOne, hg, hd, SubSchema.prepSubStage, prepHookStage,
        FieldDef.onUpdate, pure, Except.pure, Bind.bind, Except.bind]
    | vBool x =>
      simp [FieldDef.prepOne, hg, hd, SubSchema.prepSubStage, prepHookStage,
        FieldDef.onUpdate, pure, Except.pure, Bind.bind, Except.bind]
    | vInt x =>
      simp [FieldDef.prepOne, hg, hd, SubSchema.prepSubStage, prepHookStage,
        FieldDef.onUpdate, pure, Except.pure, Bind.bind, Except.bind]
    | vStr x =>
      simp [FieldDef.prepOne, hg, hd, SubSchema.prepSubStage, prepHookStage,
        FieldDef.onUpdate, pure, Except.pure, Bind.bind, Except.bind]
    | vDoc x =>
      simp [FieldDef.prepOne, hg, hd, SubSchema.prepSubStage, prepHookStage,
        FieldDef.onUpdate, pure, Except.pure, Bind.bind, Except.bind]
    | vPtrDoc x =>
      simp [FieldDef.prepOne, hg, hd, SubSchema.prepSubStage, prepHookStage,
        FieldDef.onUpdate, pure, Except.pure, Bind.bind, Except.bind]

/-- The field loop leaves a slot that belongs to no declared field
untouched (and preserves canonicity of the accumulators). -/
theorem FieldList.prepFields_frame : ∀ (fl : FieldList) (p o : DocV) (r : Bool)
    (c b c2 b2 : DocV) (f : String), fl.findF f = none →
    FieldList.prepFields fl p (some o) r c b = .ok (c2, b2) →
    c2.get f = c.get f ∧ b2.get f = b.get f ∧
    (c.wf = true → c2.wf = true) ∧ (b.wf = true → b2.wf = true)
  | .nil, p, o, r, c, b, c2, b2, f, _, h => by
    simp only [FieldList.prepFields, pure, Except.pure] at h
    cases h
    exact ⟨rfl, rfl, fun hw => hw, fun hw => hw⟩
  | .cons n f0 rest, p, o, r, c, b, c2, b2, f, hfind, h => by
    obtain ⟨hne, hrest⟩ := FieldList.findF_none_cons hfind
    simp only [FieldList.prepFields] at h
    rcases h1 : FieldDef.prepOne n f0 p (some o) r c b with e | ⟨c1, b1⟩ <;> rw [h1] at h
    · exact Except.noConfusion
        (show (Except.error e : Except String (DocV × DocV)) = Except.ok (c2, b2) from h)
    · have h2 : FieldList.prepFields rest p (some o) r c1 b1 = .ok (c2, b2) := h
      have hf1 := FieldDef.prepOne_frame n f0 p o r c b f (fun he => hne he.symm) c1 b1 h1
      have hf2 := FieldList.prepFields_frame rest p o r c1 b1 c2 b2 f hrest h2
      exact ⟨hf2.1.trans hf1.1, hf2.2.1.trans hf1.2.1,
        fun hw => hf2.2.2.1 (hf1.2.2.1 hw), fun hw => hf2.2.2.2 (hf1.2.2.2 hw)⟩

/-- Through the whole field loop, a declared field without validator,
nested schema or update hook whose payload value differs from the
original's ends with the submitted value in changes and the original
value in base (given unique field names). -/
theorem FieldList.prepFields_track : ∀ (fl : FieldList) (p o c0 b0 c2 b2 : DocV)
    (f : String) (fd : FieldDef) (w ov : Value),
    fl.namesNodup = true → fl.findF f = some fd →
    fd.fvalidator = none → fd.subSchema = SubSchema.nosub → fd.onUpdate = none →
    p.get f = some w → o.get f = some ov → Value.veq w ov = false →
    FieldList.prepFields fl p (some o) false c0 b0 = .ok (c2, b2) →
    c2.get f = some w ∧ b2.get f = some ov ∧
    (c0.wf = true → c2.wf = true) ∧ (b0.wf = true → b2.wf = true)
  | .nil, _, _, _, _, _, _, _, _, _, _, _, hfind, _, _, _, _, _, _, _ =>
    Option.noConfusion hfind
  | .cons n f0 rest, p, o, c0, b0, c2, b2, f, fd, w, ov, hnodup, hfind, hval, hsub, hupd,
      hw, hov, hdiff, h => by
    obtain ⟨hnd1, hnd2⟩ := FieldList.namesNodup_cons hnodup
    simp only [FieldList.findF] at hfind
    by_cases hn : n = f
    · rw [if_pos hn] at hfind
      subst hn
      have hfd : f0 = fd := Option.some.inj hfind
      subst hfd
      cases f0 with
      | mk dflt req ro hid valid sub onini onupd dep =>
        simp only [FieldDef.fvalidator] at hval
        simp only [FieldDef.subSchema] at hsub
        simp only [FieldDef.onUpdate] at hupd
        subst hval
        subst hsub
        subst hupd
        have hstep := FieldDef.prepOne_diffVal n dflt req ro hid onini dep p o c0 b0 w ov
          hw hov hdiff
        simp only [FieldList.prepFields] at h
        rw [hstep] at h
        have h2 : FieldList.prepFields rest p (some o) false (c0.insert n w)
            (b0.insert n ov) = .ok (c2, b2) := h
        have hfr := FieldList.prepFields_frame rest p o false (c0.insert n w)
          (b0.insert n ov) c2 b2 n hnd1 h2
        refine ⟨?_, ?_, ?_, ?_⟩
        · rw [hfr.1, DocV.get_insert_self]
        · rw [hfr.2.1, DocV.get_insert_self]
        · exact fun hwf => hfr.2.2.1 (DocV.wf_insert _ _ _ hwf)
        · exact fun hwf => hfr.2.2.2 (DocV.wf_insert _ _ _ hwf)
    · rw [if_neg hn] at hfind
      simp only [FieldList.prepFields] at h
      rcases h1 : FieldDef.prepOne n f0 p (some o) false c0 b0 with e | ⟨c1, b1⟩ <;>
        rw [h1] at h
      · exact Except.noConfusion
          (show (Except.error e : Except String (DocV × DocV)) = Except.ok (c2, b2) from h)
      · have h2 : FieldList.prepFields rest p (some o) false c1 b1 = .ok (c2, b2) := h
        have hf1 := FieldDef.prepOne_frame n f0 p o false c0 b0 f
          (fun he => hn he.symm) c1 b1 h1
        have ht := FieldList.prepFields_track rest p o c1 b1 c2 b2 f fd w ov hnd2 hfind
          hval hsub hupd hw hov hdiff h2
        exact ⟨ht.1, ht.2.1, fun hwf => ht.2.2.1 (hf1.2.2.1 hwf),
          fun hwf => ht.2.2.2 (hf1.2.2.2 hwf)⟩

/-- The out-of-schema copy loop never touches the slot of a declared
field. -/
theorem FieldList.outOfSchema_get : ∀ (fl : FieldList) (p c : DocV) (f : String),
    (fl.findF f).isSome = true → (FieldList.outOfSchema fl p c).get f = c.get f
  | _, .nil, _, _, _ => rfl
  | fl, .cons k v rest, c, f, hf => by
    simp only [FieldList.outOfSchema]
    split
    · exact FieldList.outOfSchema_get fl rest c f hf
    · rename_i hk
      rw [FieldList.outOfSchema_get fl rest _ f hf]
      have hkf : k ≠ f := by
        intro he
        subst he
        rw [hk] at hf
        exact Bool.noConfusion hf
      exact DocV.get_insert_ne _ _ _ _ (fun he => hkf he.symm)

/-- The out-of-schema copy loop preserves canonicity. -/
theorem FieldList.outOfSchema_wf : ∀ (fl : FieldList) (p c : DocV),
    c.wf = true → (FieldList.outOfSchema fl p c).wf = true
  | _, .nil, _, hw => hw
  | fl, .cons k v rest, c, hw => by
    simp only [FieldList.outOfSchema]
    split
    · exact FieldList.outOfSchema_wf fl rest c hw
    · exact FieldList.outOfSchema_wf fl rest _ (DocV.wf_insert _ _ _ hw)

/-- Phase one of validate only ever adds errors: canonicity of the
error map is preserved and no existing message disappears. -/
theorem FieldList.checkFields_wfE_mono : ∀ (fl : FieldList) (changes base : DocV)
    (errs : ErrMap), errs.wfE = true →
    (FieldList.checkFields fl changes base errs).wfE = true ∧
    (∀ k s, errs.hasMsg k s = true →
      (FieldList.checkFields fl changes base errs).hasMsg k s = true)
  | .nil, changes, base, errs, hw => by
    simp only [FieldList.checkFields]
    exact ⟨hw, fun _ _ h => h⟩
  | .cons n f0 rest, changes, base, errs, hw => by
    have key : ∀ (e2 : ErrMap), e2.wfE = true →
        (∀ k s, errs.hasMsg k s = true → e2.hasMsg k s = true) →
        (FieldList.checkFields rest changes base e2).wfE = true ∧
        (∀ k s, errs.hasMsg k s = true →
          (FieldList.checkFields rest changes base e2).hasMsg k s = true) := by
      intro e2 hw2 hm2
      obtain ⟨ihw, ihm⟩ := FieldList.checkFields_wfE_mono rest changes base e2 hw2
      exact ⟨ihw, fun k s h => ihm k s (hm2 k s h)⟩
    simp only [FieldList.checkFields]
    repeat' split
    all_goals refine key _ ?_ ?_
    all_goals
      first
      | exact hw
      | exact ErrMap.wfE_addFieldError _ _ _ hw
      | exact ErrMap.wfE_addFieldError _ _ _ (ErrMap.wfE_addFieldError _ _ _ hw)
      | exact ErrMap.wfE_addFieldError _ _ _
          (ErrMap.wfE_addFieldError _ _ _ (ErrMap.wfE_addFieldError _ _ _ hw))
      | (intro k s h
         first
         | exact h
         | exact ErrMap.hasMsg_mono_add _ _ _ _ _ hw h
         | exact ErrMap.hasMsg_mono_add _ _ _ _ _ (ErrMap.wfE_addFieldError _ _ _ hw)
             (ErrMap.hasMsg_mono_add _ _ _ _ _ hw h)
         | exact ErrMap.hasMsg_mono_add _ _ _ _ _
             (ErrMap.wfE_addFieldError _ _ _ (ErrMap.wfE_addFieldError _ _ _ hw))
             (ErrMap.hasMsg_mono_add _ _ _ _ _ (ErrMap.wfE_addFieldError _ _ _ hw)
               (ErrMap.hasMsg_mono_add _ _ _ _ _ hw h)))

/-- Phase one of validate fires the "read-only" error (schema.go lines
234-239) for every declared read-only field present in the change set. -/
theorem FieldList.checkFields_fires : ∀ (fl : FieldList) (changes base : DocV)
    (errs : ErrMap) (f : String) (fd : FieldDef), errs.wfE = true →
    fl.findF f = some fd → fd.readOnly = true → (changes.get f).isSome = true →
    (FieldList.checkFields fl changes base errs).hasMsg f "read-only" = true
  | .nil, _, _, _, _, _, _, hfind, _, _ => Option.noConfusion hfind
  | .cons n f0 rest, changes, base, errs, f, fd, hw, hfind, hro, hcs => by
    simp only [FieldList.findF] at hfind
    by_cases hn : n = f
    · rw [if_pos hn] at hfind
      subst hn
      have hfd : f0 = fd := Option.some.inj hfind
      subst hfd
      simp only [FieldList.checkFields]
      rw [if_pos (show (f0.readOnly && (changes.get n).isSome) = true by rw [hro, hcs]; rfl)]
      have hw1 : (errs.addFieldError n (ErrItem.msg "read-only")).wfE = true :=
        ErrMap.wfE_addFieldError _ _ _ hw
      have hm1 : (errs.addFieldError n (ErrItem.msg "read-only")).hasMsg n "read-only"
          = true := ErrMap.hasMsg_addFieldError_self _ _ _
      repeat' split
      all_goals
        first
        | exact (FieldList.checkFields_wfE_mono rest changes base _ hw1).2 n "read-only" hm1
        | exact (FieldList.checkFields_wfE_mono rest changes base _
            (ErrMap.wfE_addFieldError _ _ _ hw1)).2 n "read-only"
            (ErrMap.hasMsg_mono_add _ _ _ _ _ hw1 hm1)
        | exact (FieldList.checkFields_wfE_mono rest changes base _
            (ErrMap.wfE_addFieldError _ _ _ (ErrMap.wfE_addFieldError _ _ _ hw1))).2
            n "read-only"
            (ErrMap.hasMsg_mono_add _ _ _ _ _ (ErrMap.wfE_addFieldError _ _ _ hw1)
              (ErrMap.hasMsg_mono_add _ _ _ _ _ hw1 hm1))
    · rw [if_neg hn] at hfind
      simp only [FieldList.checkFields]
      repeat' split
      all_goals
        first
        | exact FieldList.checkFields_fires rest changes base _ f fd hw hfind hro hcs
        | exact FieldList.checkFields_fires rest changes base _ f fd
            (ErrMap.wfE_addFieldError _ _ _ hw) hfind hro hcs
        | exact FieldList.checkFields_fires rest changes base _ f fd
            (ErrMap.wfE_addFieldError _ _ _ (ErrMap.wfE_addFieldError _ _ _ hw))
            hfind hro hcs
        | exact FieldList.checkFields_fires rest changes base _ f fd
            (ErrMap.wfE_addFieldError _ _ _
              (ErrMap.wfE_addFieldError _ _ _ (ErrMap.wfE_addFieldError _ _ _ hw)))
            hfind hro hcs

/-- Phase two of validate only ever adds errors: canonicity of the
error map is preserved and no existing message disappears. -/
theorem FieldList.checkDoc_wfE_mono : ∀ (fl : FieldList) (iter doc changes base : DocV)
    (errs : ErrMap), errs.wfE = true →
    ((FieldList.checkDoc fl iter doc changes base errs).2).wfE = true ∧
    (∀ k s, errs.hasMsg k s = true →
      ((FieldList.checkDoc fl iter doc changes base errs).2).hasMsg k s = true)
  | fl, .nil, doc, changes, base, errs, hw => by
    simp only [FieldList.checkDoc]
    exact ⟨hw, fun _ _ h => h⟩
  | fl, .cons k2 v iter, doc, changes, base, errs, hw => by
    have key : ∀ (doc2 : DocV) (e2 : ErrMap), e2.wfE = true →
        (∀ k s, errs.hasMsg k s = true → e2.hasMsg k s = true) →
        ((FieldList.checkDoc fl iter doc2 changes base e2).2).wfE = true ∧
        (∀ k s, errs.hasMsg k s = true →
          ((FieldList.checkDoc fl iter doc2 changes base e2).2).hasMsg k s = true) := by
      intro doc2 e2 hw2 hm2
      obtain ⟨ihw, ihm⟩ := FieldList.checkDoc_wfE_mono fl iter doc2 changes base e2 hw2
      exact ⟨ihw, fun k s h => ihm k s (hm2 k s h)⟩
    simp only [FieldList.checkDoc]
    repeat' split
    all_goals refine key _ _ ?_ ?_
    all_goals
      first
      | exact hw
      | exact ErrMap.wfE_addFieldError _ _ _ hw
      | exact ErrMap.wfE_addFieldError _ _ _ (ErrMap.wfE_addFieldError _ _ _ hw)
      | exact ErrMap.wfE_addFieldError _ _ _
          (ErrMap.wfE_addFieldError _ _ _ (ErrMap.wfE_addFieldError _ _ _ hw))
      | (intro k s h
         first
         | exact h
         | exact ErrMap.hasMsg_mono_add _ _ _ _ _ hw h
         | exact ErrMap.hasMsg_mono_add _ _ _ _ _ (ErrMap.wfE_addFieldError _ _ _ hw)
             (ErrMap.hasMsg_mono_add _ _ _ _ _ hw h)
         | exact ErrMap.hasMsg_mono_add _ _ _ _ _
             (ErrMap.wfE_addFieldError _ _ _ (ErrMap.wfE_addFieldError _ _ _ hw))
             (ErrMap.hasMsg_mono_add _ _ _ _ _ (ErrMap.wfE_addFieldError _ _ _ hw)
               (ErrMap.hasMsg_mono_add _ _ _ _ _ hw h)))
termination_by fl iter _ _ _ _ _ => (FieldList.msize fl, DocV.length iter + 1)
decreasing_by
  apply Prod.Lex.right
  simp only [DocV.length]
  omega

/-- Phase two of validate leaves the slot of a declared field that has
neither a validator nor a nested schema untouched in the document. -/
theorem FieldList.checkDoc_get : ∀ (fl : FieldList) (iter doc changes base : DocV)
    (errs : ErrMap) (f : String),
    (∀ fd2, fl.findF f = some fd2 →
      fd2.fvalidator = none ∧ fd2.subSchema = SubSchema.nosub) →
    ((FieldList.checkDoc fl iter doc changes base errs).1).get f = doc.get f
  | fl, .nil, doc, changes, base, errs, f, _ => by
    simp [FieldList.checkDoc]
  | fl, .cons k2 v iter, doc, changes, base, errs, f, hok => by
    simp only [FieldList.checkDoc]
    by_cases hk : k2 = f
    · subst hk
      split
      · exact FieldList.checkDoc_get fl iter doc changes base _ k2 hok
      · rename_i fd2 hf2
        obtain ⟨hv2, hs2⟩ := hok fd2 hf2
        split
        · rename_i ss hss
          rw [hs2] at hss
          exact SubSchema.noConfusion hss
        · split
          · rename_i fv hfv
            rw [hv2] at hfv
            exact Option.noConfusion hfv
          · exact FieldList.checkDoc_get fl iter doc changes base _ k2 hok
    · repeat' split
      all_goals
        first
        | exact FieldList.checkDoc_get fl iter doc changes base _ f hok
        | (rw [FieldList.checkDoc_get fl iter _ changes base _ f hok]
           exact DocV.get_insert_ne _ _ _ _ (fun he => hk he.symm))
termination_by fl iter _ _ _ _ _ _ => (FieldList.msize fl, DocV.length iter + 1)
decreasing_by
  all_goals apply Prod.Lex.right
  all_goals simp only [DocV.length]
  all_goals omega

/-- The size gate returns the very document it is given, when it
returns one at all. -/
theorem sizeGate_doc (minL maxL : Int) (d : DocV) (e : ErrMap) (d2 : DocV)
    (h : (sizeGate minL maxL d e).1 = some d2) : d2 = d := by
  unfold sizeGate at h
  split at h
  · exact Option.noConfusion h
  · split at h
    · exact Option.noConfusion h
    · exact (Option.some.inj h).symm

/-- The size gate never removes an error message. -/
theorem sizeGate_hasMsg (minL maxL : Int) (d : DocV) (e : ErrMap) (k s : String)
    (hw : e.wfE = true) (h : e.hasMsg k s = true) :
    (sizeGate minL maxL d e).2.hasMsg k s = true := by
  unfold sizeGate
  split
  · exact ErrMap.hasMsg_mono_add _ _ _ _ _ hw h
  · split
    · exact ErrMap.hasMsg_mono_add _ _ _ _ _ hw h
    · exact h

/-- Root validation unfolded: phase one, merge, root-only dependency
validation, phase two, size gate. -/
theorem Schema.validateRoot_eq (fl : FieldList) (minL maxL : Int) (changes base : DocV) :
    Schema.validateRoot (.mk fl minL maxL) changes base =
      sizeGate minL maxL
        (FieldList.checkDoc fl (DocV.overlay base changes) (DocV.overlay base changes)
          changes base
          ((FieldList.checkFields fl changes base ErrMap.nil).merge
            (validateDependencies fl changes (DocV.overlay base changes)))).1
        (FieldList.checkDoc fl (DocV.overlay base changes) (DocV.overlay base changes)
          changes base
          ((FieldList.checkFields fl changes base ErrMap.nil).merge
            (validateDependencies fl changes (DocV.overlay base changes)))).2 := by
  simp only [Schema.validateRoot, Schema.validateR, if_true]

/-- A single read-only field declaration with no default, validator,
nested schema, hooks or dependency. -/
def c4fd : FieldDef := .mk none false true false none .nosub none none none

def c4fl : FieldList := .cons "f" c4fd .nil

def c4S : Schema := .mk c4fl 0 0

def c4O : DocV := .cons "f" (.vInt 1) .nil

def c4P2 : DocV := .cons "f" (.vInt 2) .nil

/-- C4 counterexample: with the schema {f: ReadOnly} and original
{f: 1}, (i) the update-mode payload {f: 1} CONTAINS the read-only field
yet Prepare records no change (the value deep-equals the original,
schema.go line 132) and Validate raises no "read-only" error, against
the claim that any payload containing the field yields one; (ii) the
payload {f: 2} does yield the error, but the merged document returned
by Validate carries the SUBMITTED value {f: 2}, not the field's
original value 1, against the claim that the original value is
preserved in the merged document. -/
theorem c4_counterexample :
    (Schema.prepare c4S c4O (some c4O) false = Except.ok (DocV.nil, c4O) ∧
      (Schema.validateRoot c4S DocV.nil c4O).2.hasMsg "f" "read-only" = false) ∧
    (Schema.prepare c4S c4P2 (some c4O) false = Except.ok (c4P2, c4O) ∧
      (Schema.validateRoot c4S c4P2 c4O).1 = some c4P2 ∧
      (Schema.validateRoot c4S c4P2 c4O).2.hasMsg "f" "read-only" = true) := by
  refine ⟨⟨rfl, ?_⟩, rfl, ?_, ?_⟩ <;>
    simp [Schema.validateRoot, Schema.validateR, FieldList.checkFields, FieldList.checkDoc,
      sizeGate, DocV.overlay, DocV.insert, DocV.erase, DocV.get, DocV.length,
      c4S, c4fl, c4fd, c4O, c4P2, FieldDef.readOnly, FieldDef.required,
      FieldDef.subSchema, FieldDef.fvalidator, FieldDef.dependency, validateDependencies,
      ErrMap.merge, ErrMap.addFieldError, ErrMap.addAll, ErrMap.getL, ErrMap.hasMsg,
      ErrList.hasMsgIn, ErrList.one, ErrList.append, ErrMap.isEmpty, FieldList.findF,
      strLt, strLtAux, DocV.isEmpty, FieldList.outOfSchema]

/-- C4 (amended): for a declared ReadOnly field without validator,
nested schema or update hook, in a schema with unique field names, an
update-mode payload whose value for the field DIFFERS (by deep
equality) from the original's yields: the submitted value recorded in
the change set, the original value in base, a "read-only" field error
from Prepare followed by Validate, and — whenever Validate returns a
document at all — the SUBMITTED value (not the original's) at the
field's slot of the merged document. -/
theorem c4_amended (fl : FieldList) (minL maxL : Int) (p o : DocV) (f : String)
    (fd : FieldDef) (w ov : Value) (c2 b2 : DocV)
    (hnodup : fl.namesNodup = true)
    (hfind : fl.findF f = some fd)
    (hro : fd.readOnly = true)
    (hval : fd.fvalidator = none)
    (hsub : fd.subSchema = SubSchema.nosub)
    (hupd : fd.onUpdate = none)
    (hw : p.get f = some w)
    (hov : o.get f = some ov)
    (hdiff : Value.veq w ov = false)
    (htomb : w ≠ Value.tomb)
    (hprep : Schema.prepare (.mk fl minL maxL) p (some o) false = .ok (c2, b2)) :
    c2.get f = some w ∧ b2.get f = some ov ∧
    (Schema.validateRoot (.mk fl minL maxL) c2 b2).2.hasMsg f "read-only" = true ∧
    (∀ d, (Schema.validateRoot (.mk fl minL maxL) c2 b2).1 = some d →
      d.get f = some w) := by
  simp only [Schema.prepare] at hprep
  rcases hpf : FieldList.prepFields fl p (some o) false DocV.nil DocV.nil with e | ⟨c0, b0⟩ <;>
    rw [hpf] at hprep
  · exact Except.noConfusion
      (show (Except.error e : Except String (DocV × DocV)) = Except.ok (c2, b2) from hprep)
  · have hpp : Except.ok (FieldList.outOfSchema fl p c0, b0) = Except.ok (c2, b2) := hprep
    have hinj := Except.ok.inj hpp
    have hc2 : FieldList.outOfSchema fl p c0 = c2 := congrArg Prod.fst hinj
    have hb2 : b0 = b2 := congrArg Prod.snd hinj
    obtain ⟨htc, htb, htcw, _⟩ := FieldList.prepFields_track fl p o DocV.nil DocV.nil c0 b0
      f fd w ov hnodup hfind hval hsub hupd hw hov hdiff hpf
    have hfS : (fl.findF f).isSome = true := by rw [hfind]; rfl
    have hc2get : c2.get f = some w := by
      rw [← hc2, FieldList.outOfSchema_get fl p c0 f hfS]
      exact htc
    have hb2get : b2.get f = some ov := hb2 ▸ htb
    have hc2wf : c2.wf = true := by
      rw [← hc2]
      exact FieldList.outOfSchema_wf fl p c0 (htcw rfl)
    have hcfwf := (FieldList.checkFields_wfE_mono fl c2 b2 ErrMap.nil rfl).1
    have hfire := FieldList.checkFields_fires fl c2 b2 ErrMap.nil f fd rfl hfind hro
      (by rw [hc2get]; rfl)
    have hE1wf : ((FieldList.checkFields fl c2 b2 ErrMap.nil).merge
        (validateDependencies fl c2 (DocV.overlay b2 c2))).wfE = true :=
      ErrMap.wfE_merge _ _ hcfwf
    have hE1msg : ((FieldList.checkFields fl c2 b2 ErrMap.nil).merge
        (validateDependencies fl c2 (DocV.overlay b2 c2))).hasMsg f "read-only" = true :=
      ErrMap.hasMsg_mono_merge _ _ f "read-only" hcfwf hfire
    obtain ⟨hPwf, hPmono⟩ := FieldList.checkDoc_wfE_mono fl (DocV.overlay b2 c2)
      (DocV.overlay b2 c2) c2 b2 _ hE1wf
    refine ⟨hc2get, hb2get, ?_, ?_⟩
    · rw [Schema.validateRoot_eq]
      exact sizeGate_hasMsg minL maxL _ _ f "read-only" hPwf (hPmono f "read-only" hE1msg)
    · intro d hd
      rw [Schema.validateRoot_eq] at hd
      have hdd := sizeGate_doc minL maxL _ _ d hd
      rw [hdd]
      rw [FieldList.checkDoc_get fl (DocV.overlay b2 c2) (DocV.overlay b2 c2) c2 b2 _ f
        (fun fd2 h2 => by
          rw [hfind] at h2
          cases Option.some.inj h2
          exact ⟨hval, hsub⟩)]
      exact DocV.overlay_get_some c2 b2 f w hc2wf hc2get htomb

/-- Witness for C4 at a concrete input: schema {f: ReadOnly}, original
{f: 1}, payload {f: 2} — the "read-only" error is raised. -/
theorem c4_witness :
    (Schema.validateRoot (.mk c4fl 0 0) c4P2 c4O).2.hasMsg "f" "read-only" = true :=
  (c4_amended c4fl 0 0 c4P2 c4O "f" c4fd (.vInt 2) (.vInt 1) c4P2 c4O
    rfl rfl rfl rfl rfl rfl rfl rfl rfl (fun h => Value.noConfusion h) rfl).2.2.1

/-- A field definition carrying none of the value-transforming or
recursive capabilities: no validator, no nested schema, no update
hook. -/
def FieldDef.isPlain : FieldDef → Bool
  | .mk _ _ _ _ valid sub _ onupd _ =>
    valid.isNone && (match sub with | .nosub => true | .sub _ => false) && onupd.isNone

def FieldList.plainFields : FieldList → Bool
  | .nil => true
  | .cons _ f rest => f.isPlain && rest.plainFields

/-- Every key of the document has a field definition in the list. -/
def DocV.allDeclaredIn : DocV → FieldList → Bool
  | .nil, _ => true
  | .cons k _ rest, fl => (fl.findF k).isSome && rest.allDeclaredIn fl

/-- Every required field of the list is present and non-null in the
document. -/
def FieldList.requiredOk : FieldList → DocV → Bool
  | .nil, _ => true
  | .cons n f rest, p =>
    (if f.required then
      (match p.get n with
        | some .null => false
        | some _ => true
        | none => false)
    else true) && rest.requiredOk p

theorem FieldDef.isPlain_spec : ∀ (f : FieldDef), f.isPlain = true →
    f.fvalidator = none ∧ f.subSchema = SubSchema.nosub ∧ f.onUpdate = none
  | .mk dflt req ro hid valid sub onini onupd dep, h => by
    simp only [FieldDef.isPlain, Bool.and_eq_true] at h
    refine ⟨Option.isNone_iff_eq_none.mp h.1.1, ?_, Option.isNone_iff_eq_none.mp h.2⟩
    cases sub with
    | nosub => rfl
    | sub ss => exact Bool.noConfusion h.1.2

theorem FieldList.plainFields_cons {n : String} {f0 : FieldDef} {rest : FieldList}
    (h : (FieldList.cons n f0 rest).plainFields = true) :
    f0.isPlain = true ∧ rest.plainFields = true := by
  simp only [FieldList.plainFields, Bool.and_eq_true] at h
  exact h

theorem FieldList.plainFields_findF : ∀ (fl : FieldList) (f : String) (fd : FieldDef),
    fl.plainFields = true → fl.findF f = some fd → fd.isPlain = true
  | .nil, _, _, _, hfind => Option.noConfusion hfind
  | .cons n f0 rest, f, fd, hp, hfind => by
    obtain ⟨h1, h2⟩ := FieldList.plainFields_cons hp
    simp only [FieldList.findF] at hfind
    by_cases hn : n = f
    · rw [if_pos hn] at hfind
      cases Option.some.inj hfind
      exact h1
    · rw [if_neg hn] at hfind
      exact FieldList.plainFields_findF rest f fd h2 hfind

theorem DocV.allDeclaredIn_cons {k : String} {v : Value} {rest : DocV} {fl : FieldList}
    (h : (DocV.cons k v rest).allDeclaredIn fl = true) :
    (fl.findF k).isSome = true ∧ rest.allDeclaredIn fl = true := by
  simp only [DocV.allDeclaredIn, Bool.and_eq_true] at h
  exact h

theorem DocV.allDeclared_get : ∀ (p : DocV) (fl : FieldList) (f : String) (v : Value),
    p.allDeclaredIn fl = true → p.get f = some v → (fl.findF f).isSome = true
  | .nil, _, _, _, _, hget => Option.noConfusion hget
  | .cons k v0 rest, fl, f, v, hdecl, hget => by
    obtain ⟨h1, h2⟩ := DocV.allDeclaredIn_cons hdecl
    simp only [DocV.get] at hget
    by_cases hk : k = f
    · subst hk
      exact h1
    · rw [if_neg hk] at hget
      exact DocV.allDeclared_get rest fl f v h2 hget

/-- When every payload key is declared, the out-of-schema copy loop
adds nothing. -/
theorem FieldList.outOfSchema_allDeclared : ∀ (fl : FieldList) (p c : DocV),
    p.allDeclaredIn fl = true → FieldList.outOfSchema fl p c = c
  | _, .nil, _, _ => rfl
  | fl, .cons k v rest, c, hdecl => by
    obtain ⟨h1, h2⟩ := DocV.allDeclaredIn_cons hdecl
    simp only [FieldList.outOfSchema]
    split
    · exact FieldList.outOfSchema_allDeclared fl rest c h2
    · rename_i hk
      rw [hk] at h1
      exact Bool.noConfusion h1

/-- With an empty change set the dependency pass raises nothing. -/
theorem validateDependencies_nilC : ∀ (fl : FieldList) (doc : DocV),
    validateDependencies fl DocV.nil doc = ErrMap.nil
  | .nil, _ => rfl
  | .cons n f rest, doc => by
    simp only [validateDependencies, validateDependencies_nilC rest doc]
    split
    · rfl
    · rfl

/-- Over plain fields (no validator, nested schema or update hook), an
update-mode run of the field loop with payload identical to the
original records no change at all, and the base ends up holding the
original value of every declared field present in the payload. -/
theorem FieldList.prepFields_c3 : ∀ (fl : FieldList) (p c b : DocV),
    fl.plainFields = true →
    ∃ b2, FieldList.prepFields fl p (some p) false c b = .ok (c, b2) ∧
      (∀ f, b2.get f =
        if (fl.findF f).isSome && (p.get f).isSome then p.get f else b.get f) ∧
      (b.wf = true → b2.wf = true)
  | .nil, p, c, b, _ => by
    refine ⟨b, rfl, fun f => ?_, fun hw => hw⟩
    simp [FieldList.findF]
  | .cons n f0 rest, p, c, b, hplain => by
    obtain ⟨hpl1, hpl2⟩ := FieldList.plainFields_cons hplain
    obtain ⟨hv0, hs0, hu0⟩ := FieldDef.isPlain_spec f0 hpl1
    cases f0 with
    | mk dflt req ro hid valid sub onini onupd dep =>
      simp only [FieldDef.fvalidator] at hv0
      simp only [FieldDef.subSchema] at hs0
      simp only [FieldDef.onUpdate] at hu0
      subst hv0
      subst hs0
      subst hu0
      have hstep := FieldDef.prepOne_sameVal n dflt req ro hid onini dep p c b
      obtain ⟨b2, heq, hget, hwf⟩ := FieldList.prepFields_c3 rest p c
        (match p.get n with | some v => b.insert n v | none => b) hpl2
      refine ⟨b2, ?_, ?_, ?_⟩
      · simp only [FieldList.prepFields]
        rw [hstep]
        exact heq
      · intro f
        rw [hget f]
        by_cases hn : n = f
        · subst hn
          have hfeq : (FieldList.cons n (FieldDef.mk dflt req ro hid none SubSchema.nosub
              onini none dep) rest).findF n = some (FieldDef.mk dflt req ro hid none
              SubSchema.nosub onini none dep) := by
            simp [FieldList.findF]
          rw [hfeq]
          rcases hp : p.get n with _ | v
          · simp [hp]
          · simp [DocV.get_insert_self]
        · have hfeq : (FieldList.cons n (FieldDef.mk dflt req ro hid none SubSchema.nosub
              onini none dep) rest).findF f = rest.findF f := by
            simp [FieldList.findF, hn]
          rw [hfeq]
          have hb1 : (match p.get n with
              | some v => b.insert n v
              | none => b).get f = b.get f := by
            rcases hp : p.get n with _ | v
            · rfl
            · exact DocV.get_insert_ne _ _ _ _ (fun he => hn he.symm)
          rw [hb1]
      · intro hw
        refine hwf ?_
        rcases hp : p.get n with _ | v
        · exact hw
        · exact DocV.wf_insert _ _ _ hw

theorem FieldList.requiredOk_cons {n : String} {f0 : FieldDef} {rest : FieldList}
    {p : DocV} (h : (FieldList.cons n f0 rest).requiredOk p = true) :
    (if f0.required then
      (match p.get n with
        | some .null => false
        | some _ => true
        | none => false)
    else true) = true ∧ rest.requiredOk p = true := by
  simp only [FieldList.requiredOk, Bool.and_eq_true] at h
  exact h

/-- Over plain fields with all required fields present non-null, phase
one of validate on an empty change set raises nothing. -/
theorem FieldList.checkFields_c3 : ∀ (fl : FieldList) (p : DocV) (errs : ErrMap),
    fl.plainFields = true → fl.requiredOk p = true →
    FieldList.checkFields fl DocV.nil p errs = errs
  | .nil, _, errs, _, _ => by simp [FieldList.checkFields]
  | .cons n f0 rest, p, errs, hplain, hreq => by
    obtain ⟨hpl1, hpl2⟩ := FieldList.plainFields_cons hplain
    obtain ⟨hv0, hs0, hu0⟩ := FieldDef.isPlain_spec f0 hpl1
    obtain ⟨hr1, hr2⟩ := FieldList.requiredOk_cons hreq
    have ih := FieldList.checkFields_c3 rest p errs hpl2 hr2
    by_cases hr : f0.required = true
    · simp only [hr, if_true] at hr1
      rcases hgp : p.get n with _ | v
      · rw [hgp] at hr1
        exact Bool.noConfusion hr1
      · rw [hgp] at hr1
        cases v with
        | null => exact Bool.noConfusion hr1
        | tomb =>
          simp [FieldList.checkFields, DocV.get, hr, hgp]
          split
          · rename_i ss hss
            rw [hs0] at hss
            exact SubSchema.noConfusion hss
          · exact ih
        | vBool x =>
          simp [FieldList.checkFields, DocV.get, hr, hgp]
          split
          · rename_i ss hss
            rw [hs0] at hss
            exact SubSchema.noConfusion hss
          · exact ih
        | vInt x =>
          simp [FieldList.checkFields, DocV.get, hr, hgp]
          split
          · rename_i ss hss
            rw [hs0] at hss
            exact SubSchema.noConfusion hss
          · exact ih
        | vStr x =>
          simp [FieldList.checkFields, DocV.get, hr, hgp]
          split
          · rename_i ss hss
            rw [hs0] at hss
            exact SubSchema.noConfusion hss
          · exact ih
        | vDoc x =>
          simp [FieldList.checkFields, DocV.get, hr, hgp]
          split
          · rename_i ss hss
            rw [hs0] at hss
            exact SubSchema.noConfusion hss
          · exact ih
        | vPtrDoc x =>
          simp [FieldList.checkFields, DocV.get, hr, hgp]
          split
          · rename_i ss hss
            rw [hs0] at hss
            exact SubSchema.noConfusion hss
          · exact ih
    · simp only [Bool.not_eq_true] at hr
      simp [FieldList.checkFields, DocV.get, hr]
      split
      · rename_i ss hss
        rw [hs0] at hss
        exact SubSchema.noConfusion hss
      · exact ih

/-- Over plain, fully declared document keys, phase two of validate
changes nothing. -/
theorem FieldList.checkDoc_c3 : ∀ (fl : FieldList) (iter doc changes base : DocV)
    (errs : ErrMap), fl.plainFields = true → iter.allDeclaredIn fl = true →
    FieldList.checkDoc fl iter doc changes base errs = (doc, errs)
  | fl, .nil, doc, changes, base, errs, _, _ => by simp [FieldList.checkDoc]
  | fl, .cons k v iter, doc, changes, base, errs, hplain, hdecl => by
    obtain ⟨h1, h2⟩ := DocV.allDeclaredIn_cons hdecl
    obtain ⟨fd2, hfd⟩ := Option.isSome_iff_exists.mp h1
    obtain ⟨hv2, hs2, _⟩ :=
      FieldDef.isPlain_spec fd2 (FieldList.plainFields_findF fl k fd2 hplain hfd)
    have ih := FieldList.checkDoc_c3 fl iter doc changes base errs hplain h2
    simp only [FieldList.checkDoc]
    split
    · rename_i hf0
      rw [hfd] at hf0
      exact Option.noConfusion hf0
    · rename_i fd3 hf3
      rw [hfd] at hf3
      cases Option.some.inj hf3
      split
      · rename_i ss hss
        rw [hs2] at hss
        exact SubSchema.noConfusion hss
      · split
        · rename_i fv hfv
          rw [hv2] at hfv
          exact Option.noConfusion hfv
        · exact ih

/-- C3 counterexample: an empty schema with original = payload =
{x: 1}.  The payload deep-equals the original, yet update-mode Prepare
returns the NON-empty change set {x: 1}: the out-of-schema copy loop
(schema.go lines 215-219) moves every undeclared payload field into
changes even when it matches the original, so Prepare followed by
Validate does not yield an empty change set. -/
theorem c3_counterexample :
    Schema.prepare (.mk .nil 0 0) (DocV.cons "x" (.vInt 1) .nil)
        (some (DocV.cons "x" (.vInt 1) .nil)) false
      = Except.ok (DocV.cons "x" (.vInt 1) .nil, DocV.nil) := rfl

/-- C3 (amended): for a schema all of whose fields are plain (no
validator, nested schema or update hook), a canonical payload
identical to the original whose keys are all declared, with required
fields present non-null and the size bounds met, update-mode Prepare
yields an empty change set with the original as base, and Validate
then returns the original document unchanged with no errors
(idempotence). -/
theorem c3_amended (fl : FieldList) (minL maxL : Int) (p : DocV)
    (hwf : p.wf = true)
    (hplain : fl.plainFields = true)
    (hdecl : p.allDeclaredIn fl = true)
    (hreq : fl.requiredOk p = true)
    (hmin : minL ≤ (p.length : Int))
    (hmax : 0 < maxL → (p.length : Int) ≤ maxL) :
    Schema.prepare (.mk fl minL maxL) p (some p) false = Except.ok (DocV.nil, p) ∧
    Schema.validateRoot (.mk fl minL maxL) DocV.nil p = (some p, ErrMap.nil) := by
  obtain ⟨b2, heq, hget, hbwf⟩ := FieldList.prepFields_c3 fl p DocV.nil DocV.nil hplain
  have hb2p : b2 = p := by
    refine DocV.ext b2 p (hbwf rfl) hwf (fun f => ?_)
    rw [hget f]
    rcases hpf : p.get f with _ | v
    · simp [hpf, DocV.get]
    · have hfS := DocV.allDeclared_get p fl f v hdecl hpf
      simp [hfS, hpf]
  subst hb2p
  constructor
  · simp only [Schema.prepare]
    rw [heq]
    show Except.ok (FieldList.outOfSchema fl b2 DocV.nil, b2) = Except.ok (DocV.nil, b2)
    rw [FieldList.outOfSchema_allDeclared fl b2 DocV.nil hdecl]
  · rw [Schema.validateRoot_eq]
    simp only [DocV.overlay]
    rw [FieldList.checkFields_c3 fl b2 ErrMap.nil hplain hreq, validateDependencies_nilC]
    simp only [ErrMap.merge]
    rw [FieldList.checkDoc_c3 fl b2 b2 DocV.nil b2 ErrMap.nil hplain hdecl]
    show sizeGate minL maxL b2 ErrMap.nil = (some b2, ErrMap.nil)
    unfold sizeGate
    rw [if_neg (not_lt.mpr hmin)]
    rw [if_neg (by
      simp only [Bool.and_eq_true, decide_eq_true_eq, not_and]
      intro h0 hgt
      exact absurd hgt (not_lt.mpr (hmax h0)))]

def c3fd : FieldDef := .mk none false false false none .nosub none none none

def c3fl : FieldList := .cons "a" c3fd .nil

def c3P : DocV := .cons "a" (.vInt 1) .nil

/-- Witness for C3 (amended) at a concrete input: schema {a: {}} with
original = payload = {a: 1} — Prepare yields no change and Validate
returns the original document error-free. -/
theorem c3_witness :
    Schema.prepare (.mk c3fl 0 0) c3P (some c3P) false = Except.ok (DocV.nil, c3P) ∧
    Schema.validateRoot (.mk c3fl 0 0) DocV.nil c3P = (some c3P, ErrMap.nil) :=
  c3_amended c3fl 0 0 c3P rfl rfl rfl rfl (by decide) (by decide)
